import Mathlib

/-!
# Verification of the `remote_sync` synchronization engine

This file is a shallow embedding, in Lean 4, of the core logic of
`realtime_sync.py` (a one-file local→remote directory mirroring tool), together
with theorems settling the specification claims about it.

Conventions of the embedding:
* Python strings become `String`; POSIX paths keep their `/` separators
  (`os.sep = '/'` on the target platform, so `path.replace(os.sep, '/')` is the
  identity and is not reproduced).
* `os.stat` modification times (floats) become `ℚ`; SFTP attribute times and
  sizes become `ℤ`.  Python's `int()` truncation toward zero is `pyInt`.
* The answer the local filesystem gives to `os.path.isdir p` (resolved against
  the process working directory) is passed explicitly as an oracle
  `fsIsDir : String → Bool`; the source consults it inside `is_excluded`.
* Fallible SFTP operations become an explicit executor
  `SyncAction → Except SftpErr Unit`; an exception propagating in Python becomes an
  `Except.error` value short-circuiting the surrounding iteration.
-/

/-! ## Path helper functions (`os.path` fragments used by the source) -/

/-- `os.path.basename` for POSIX paths restricted to forward-slash separators:
the part of the string after the last `'/'` (empty when the path ends in `/`). -/
def basenameChars (l : List Char) : List Char :=
  ((l.reverse.takeWhile (fun c => c ≠ '/')).reverse)

def basename (p : String) : String :=
  ⟨basenameChars p.data⟩

/-- The extension part of `os.path.splitext` applied to a *basename* (a string
with no `'/'`): the suffix starting at the last dot, except that a basename
consisting of leading dots only (such as `.bashrc` or `..`) has no extension. -/
def splitextExt (base : List Char) : List Char :=
  let afterRev := base.reverse.takeWhile (fun c => c ≠ '.')
  if afterRev.length = base.length then []
  else
    let preLen := base.length - afterRev.length - 1
    if (base.take preLen).all (fun c => c = '.') then []
    else '.' :: afterRev.reverse

/-- `str.lower()` on ASCII extension strings. -/
def lowerStr (l : List Char) : List Char := l.map Char.toLower

/-- `pre` is a leading piece of `s` (character-list level, so that the kernel
can evaluate it). -/
def strStarts (pre s : String) : Bool := pre.data.isPrefixOf s.data

/-- `os.path.join` for POSIX, for the two-argument calls in the source: an
absolute second component resets the result, otherwise the components are
joined with a single `/` (joining onto the empty string adds no separator). -/
def pyJoin (a b : String) : String :=
  if strStarts "/" b then b
  else if a = "" then b
  else a ++ "/" ++ b

/-- `os.path.relpath p base` in the only regime the watcher exercises, where
`p` equals `base` or lives strictly below it; other inputs (never produced by
the watcher, whose watch paths are all under the local root) are returned
unchanged. -/
def pyRelpath (p base : String) : String :=
  if p = base then "."
  else if strStarts (base ++ "/") p then ⟨p.data.drop (base.data.length + 1)⟩
  else p

/-! ## `fnmatch.fnmatch` (shell-glob matching, POSIX case-sensitive) -/

/-- Split a list at the first `']'`, returning the part before it and the part
after it, or `none` if there is no `']'` (an unterminated character class). -/
def splitAtRBracket : List Char → Option (List Char × List Char)
  | [] => none
  | c :: rest =>
    if c = ']' then some ([], rest)
    else (splitAtRBracket rest).map (fun q => (c :: q.1, q.2))

/-- Scan the content of a `[...]` class after the optional `!`: a `]` in the
first content position is a literal member, the class ends at the next `]`.
Returns `(content, rest-of-pattern)`, or `none` if unterminated. -/
def classScan (t : List Char) : Option (List Char × List Char) :=
  if t.head? == some ']' then
    (splitAtRBracket t.tail).map (fun q => (']' :: q.1, q.2))
  else
    splitAtRBracket t

/-- Parse the body of a `[...]` character class, mirroring the scan in
`fnmatch.translate`: an optional leading `!` negates, a `]` in first content
position is a literal member, and the class ends at the next `]`.  Returns
`(negated, content, rest-of-pattern)`, or `none` for an unterminated class
(in which case the `[` matches literally). -/
def parseClass (ps : List Char) : Option (Bool × List Char × List Char) :=
  let neg : Bool := ps.head? == some '!'
  let t := if neg then ps.tail else ps
  (classScan t).map (fun q => (neg, q.1, q.2))

/-- Membership of a character in the ranges of a class body: `a-b` denotes the
closed range, any other character denotes itself (a trailing `-` is literal). -/
def parseRanges : List Char → List (Char × Char)
  | a :: '-' :: b :: rest => (a, b) :: parseRanges rest
  | a :: rest => (a, a) :: parseRanges rest
  | [] => []

def charInRanges (c : Char) (rs : List (Char × Char)) : Bool :=
  rs.any (fun r => decide (r.1 ≤ c) && decide (c ≤ r.2))

/-- Shell-glob matching as performed by `fnmatch.fnmatch` on POSIX
(case-sensitive): `*` matches any sequence (including `/`), `?` any single
character, `[...]`/`[!...]` a (negated) character class, an unterminated `[`
is a literal, anything else matches itself.

The recursion is fuelled so that it is structural (and hence evaluates inside
the kernel); every recursive call shrinks `p.length + s.length`, so fuel
`p.length + s.length + 1` never runs out and the `0` branch is unreachable
from `globMatch`. -/
def globMatchF : ℕ → List Char → List Char → Bool
  | 0, _, _ => false
  | _ + 1, [], [] => true
  | _ + 1, [], _ :: _ => false
  | fuel + 1, '*' :: ps, [] => globMatchF fuel ps []
  | fuel + 1, '*' :: ps, c :: cs =>
    globMatchF fuel ps (c :: cs) || globMatchF fuel ('*' :: ps) cs
  | _ + 1, '?' :: _, [] => false
  | fuel + 1, '?' :: ps, _ :: cs => globMatchF fuel ps cs
  | fuel + 1, '[' :: ps, s =>
    match parseClass ps with
    | some (neg, body, rest) =>
      match s with
      | [] => false
      | c :: cs => (charInRanges c (parseRanges body) != neg) && globMatchF fuel rest cs
    | none =>
      match s with
      | '[' :: cs => globMatchF fuel ps cs
      | _ => false
  | fuel + 1, pc :: ps, c :: cs => pc = c && globMatchF fuel ps cs
  | _ + 1, _ :: _, [] => false

def globMatch (p s : List Char) : Bool :=
  globMatchF (p.length + s.length + 1) p s

/-- `fnmatch.fnmatch(name, pat)` (POSIX: `normcase` is the identity). -/
def fnmatch (name pat : String) : Bool :=
  globMatch pat.data name.data

/-! ## `is_excluded` (realtime_sync.py lines 21–34) -/

/-- The fixed allow-list `SOURCE_CODE_EXTENSIONS` (lines 14–18). -/
def SOURCE_CODE_EXTENSIONS : List String :=
  [".py", ".js", ".html", ".css", ".scss", ".java", ".c", ".cpp", ".h",
   ".hpp", ".go", ".rs", ".php", ".rb", ".ts", ".tsx", ".jsx", ".json",
   ".yml", ".yaml", ".md", ".sh", ".xml", ".sql"]

/-- `is_excluded(path, exclude_patterns, source_code_only)`.

`fsIsDir` is the oracle answering `os.path.isdir path` — a query against the
local filesystem resolved relative to the process working directory, which the
source consults (only) when `source_code_only` is set.  Note that the `path`
argument at every call site is a *root-relative* path, so this query inspects
whatever happens to be at that relative location under the process working
directory, irrespective of the entity actually being filtered. -/
def is_excluded (path : String) (exclude_patterns : List String)
    (source_code_only : Bool) (fsIsDir : String → Bool) : Bool :=
  let base_name := basename path
  if exclude_patterns.any (fun pattern =>
      fnmatch path pattern || fnmatch base_name pattern) then
    true
  else if source_code_only then
    if fsIsDir path then
      false  -- "Never exclude directories based on source_code_only"
    else
      let ext := splitextExt base_name.data
      !(SOURCE_CODE_EXTENSIONS.contains ⟨lowerStr ext⟩)
  else
    false

/-! ## Snapshots and the reconciliation plan (`perform_initial_sync`, lines 116–220)

The reconciler (spec §4.4) is a function of the two snapshots: `local_map`
(built by the `os.walk` loop, lines 127–147) and `remote_map` (built by
`walk_remote`).  We embed it as such: a snapshot is a finite set of relative
paths together with the per-path attributes the source stores in the map. -/

/-- A value of `local_map`: `{'is_dir': True}` for directories,
`{'mtime': …, 'size': …, 'is_dir': False}` for files.  The `mtime`/`size`
fields of a directory entry are never read by the source. -/
structure LocalEntry where
  is_dir : Bool
  mtime : ℚ
  size : ℤ
deriving DecidableEq

/-- The SFTP attributes of a remote entry that the source reads:
`stat.S_ISDIR(attr.st_mode)`, `attr.st_mtime` and `attr.st_size`. -/
structure RemoteAttr where
  is_dir : Bool
  st_mtime : ℤ
  st_size : ℤ
deriving DecidableEq

/-- A snapshot: the key set of the Python dict together with the stored
attributes (`entry p` is only meaningful for `p ∈ paths`). -/
structure Snapshot (α : Type) where
  paths : Finset String
  entry : String → α

/-- Python `int()` on a float-valued modification time: truncation toward
zero (computed from the reduced fraction so that the kernel can evaluate it;
`pyInt_eq` below gives the floor/ceiling characterization). -/
def pyInt (q : ℚ) : ℤ :=
  if q.num < 0 then -((-q.num) / (q.den : ℤ)) else q.num / (q.den : ℤ)

/-- Line 187: `int(local_mtime) > remote_mtime + 1 or local_size != remote_size`. -/
def needsUpload (l : LocalEntry) (r : RemoteAttr) : Bool :=
  decide (pyInt l.mtime > r.st_mtime + 1) || decide (l.size ≠ r.st_size)

/-- A remote mutation issued by the engine (spec §3 "Action"); it carries the
root-relative path (the source derives the local/remote absolute paths from it
by joining with the respective roots). -/
inductive SyncAction where
  | mkdir (p : String)
  | upload (p : String)
  | removeFile (p : String)
  | removeDir (p : String)
deriving DecidableEq

/-- Code-point lexicographic comparison of character lists — Python's `<=` on
`str` values.  Structural, so the kernel can evaluate it; shown below to agree
with the library order on `String`. -/
def charListLe : List Char → List Char → Bool
  | [], _ => true
  | _ :: _, [] => false
  | a :: as, b :: bs => if a = b then charListLe as bs else decide (a < b)

/-- Python's `<=` on strings, as a binary relation. -/
def pyLe (a b : String) : Prop := charListLe a.data b.data = true

instance : DecidableRel pyLe := fun a b =>
  inferInstanceAs (Decidable (charListLe a.data b.data = true))

theorem charListLe_iff : ∀ x y : List Char,
    charListLe x y = true ↔ (List.Lex (· < ·) x y ∨ x = y) := by
  intro x
  induction x with
  | nil =>
    intro y
    cases y with
    | nil => exact iff_of_true rfl (Or.inr rfl)
    | cons c cs => exact iff_of_true rfl (Or.inl List.Lex.nil)
  | cons a as ih =>
    intro y
    cases y with
    | nil =>
      refine iff_of_false (fun h => Bool.noConfusion h) ?_
      rintro (h | h)
      · cases h
      · cases h
    | cons b bs =>
      by_cases hab : a = b
      · subst hab
        have hstep : charListLe (a :: as) (a :: bs) = charListLe as bs := by
          simp [charListLe]
        rw [hstep, ih bs]
        constructor
        · rintro (h | rfl)
          · exact Or.inl (List.Lex.cons h)
          · exact Or.inr rfl
        · rintro (h | h)
          · cases h with
            | cons h => exact Or.inl h
            | rel h => exact absurd h (lt_irrefl a)
          · refine Or.inr ?_
            injection h
      · have hstep : charListLe (a :: as) (b :: bs) = decide (a < b) := by
          simp [charListLe, hab]
        rw [hstep, decide_eq_true_eq]
        constructor
        · intro h
          exact Or.inl (List.Lex.rel h)
        · rintro (h | h)
          · cases h with
            | cons h => exact absurd rfl hab
            | rel h => exact h
          · exact absurd (by injection h) hab

/-- `pyLe` is the library `≤` on `String`. -/
theorem pyLe_iff (a b : String) : pyLe a b ↔ a ≤ b := by
  rw [pyLe, charListLe_iff, le_iff_lt_or_eq, String.lt_iff_toList_lt,
    ← String.toList_inj]
  exact Iff.rfl

instance : IsTrans String pyLe :=
  ⟨fun _ _ _ hab hbc => (pyLe_iff _ _).mpr
    (le_trans ((pyLe_iff _ _).mp hab) ((pyLe_iff _ _).mp hbc))⟩

instance : IsAntisymm String pyLe :=
  ⟨fun _ _ hab hba => le_antisymm ((pyLe_iff _ _).mp hab) ((pyLe_iff _ _).mp hba)⟩

instance : IsTotal String pyLe :=
  ⟨fun a b => (le_total a b).imp (pyLe_iff _ _).mpr (pyLe_iff _ _).mpr⟩

/-- Python `sorted(list(s))` on a set of relative paths: the unique ascending
enumeration of the set.  (Realized by an insertion sort lifted to the
`Finset`'s underlying multiset, so that it both evaluates in the kernel and
provably produces the sorted enumeration.) -/
def sortAsc (s : Finset String) : List String :=
  Quot.liftOn s.val (fun l => List.insertionSort pyLe l)
    (fun _ _ h => List.eq_of_perm_of_sorted
      ((List.perm_insertionSort _ _).trans (h.trans (List.perm_insertionSort _ _).symm))
      (List.sorted_insertionSort _ _) (List.sorted_insertionSort _ _))

theorem mem_sortAsc {s : Finset String} {a : String} : a ∈ sortAsc s ↔ a ∈ s := by
  rcases s with ⟨v, nd⟩
  revert nd
  induction v using Quotient.inductionOn with
  | h l =>
    intro nd
    show a ∈ List.insertionSort pyLe l ↔ _
    rw [List.mem_insertionSort]
    exact Iff.rfl

theorem sortAsc_nodup (s : Finset String) : (sortAsc s).Nodup := by
  rcases s with ⟨v, nd⟩
  revert nd
  induction v using Quotient.inductionOn with
  | h l =>
    intro nd
    show (List.insertionSort pyLe l).Nodup
    exact ((List.perm_insertionSort pyLe l).nodup_iff).mpr nd

theorem sortAsc_sorted_le (s : Finset String) : (sortAsc s).Sorted (· ≤ ·) := by
  have h : (sortAsc s).Sorted pyLe := by
    rcases s with ⟨v, nd⟩
    revert nd
    induction v using Quotient.inductionOn with
    | h l =>
      intro nd
      exact List.sorted_insertionSort _ _
  exact h.imp (fun hab => (pyLe_iff _ _).mp hab)

theorem sortAsc_sorted_lt (s : Finset String) : (sortAsc s).Sorted (· < ·) :=
  (sortAsc_sorted_le s).lt_of_le (sortAsc_nodup s)

/-- Lines 160–177: `for rel_path in sorted(list(to_upload))` with
`to_upload = local_paths - remote_paths`; a directory becomes a
create-directory action, a file an upload. -/
def createPlan (L : Snapshot LocalEntry) (R : Snapshot RemoteAttr) : List SyncAction :=
  (sortAsc (L.paths \ R.paths)).map (fun p =>
    if (L.entry p).is_dir then SyncAction.mkdir p else SyncAction.upload p)

/-- Lines 179–195: `for rel_path in to_check` with
`to_check = local_paths ∩ remote_paths`; directories are skipped, a file is
re-uploaded when `needsUpload` holds.  (Python iterates the set in an
unspecified order; we fix ascending order — every claim about this phase is
about membership, not order.) -/
def comparePlan (L : Snapshot LocalEntry) (R : Snapshot RemoteAttr) : List SyncAction :=
  (sortAsc (L.paths ∩ R.paths)).filterMap (fun p =>
    if (L.entry p).is_dir then none
    else if needsUpload (L.entry p) (R.entry p) then some (SyncAction.upload p)
    else none)

/-- Lines 197–214: `if allow_delete: for rel_path in sorted(list(to_delete), reverse=True)`
with `to_delete = remote_paths - local_paths`; a remote directory becomes a
remove-directory action, a file a remove-file action; nothing when deletion is
disabled. -/
def deletePlan (L : Snapshot LocalEntry) (R : Snapshot RemoteAttr)
    (allow_delete : Bool) : List SyncAction :=
  if allow_delete then
    (sortAsc (R.paths \ L.paths)).reverse.map (fun p =>
      if (R.entry p).is_dir then SyncAction.removeDir p else SyncAction.removeFile p)
  else []

/-- The full ordered action sequence of one reconciliation pass, in source
order: creates/uploads, then compare-phase uploads, then deletions. -/
def initialSyncActions (L : Snapshot LocalEntry) (R : Snapshot RemoteAttr)
    (allow_delete : Bool) : List SyncAction :=
  createPlan L R ++ comparePlan L R ++ deletePlan L R allow_delete

/-- Lines 215–218: when deletion is disabled and `to_delete` is nonempty, the
count of extra remote items is reported (a diagnostic print, not an action). -/
def extraReport (L : Snapshot LocalEntry) (R : Snapshot RemoteAttr)
    (allow_delete : Bool) : Option ℕ :=
  if allow_delete then none
  else if R.paths \ L.paths = ∅ then none
  else some (R.paths \ L.paths).card

/-- `d` is a slash-delimited strict ancestor of `p`. -/
def isUnder (d p : String) : Prop := ∃ s : String, p = d ++ "/" ++ s

/-! ### Order helpers for the sorted plans -/

theorem list_lt_append_cons (l : List Char) (c : Char) (t : List Char) :
    List.Lex (· < ·) l (l ++ c :: t) := by
  induction l with
  | nil => exact List.Lex.nil
  | cons a l ih => exact List.Lex.cons ih

/-- A slash-delimited strict ancestor is lexicographically smaller. -/
theorem lt_of_isUnder {A B : String} (h : isUnder A B) : A < B := by
  obtain ⟨s, rfl⟩ := h
  rw [String.lt_iff_toList_lt]
  have : (A ++ "/" ++ s).toList = A.toList ++ '/' :: s.toList := by
    show (A ++ "/" ++ s).data = A.data ++ '/' :: s.data
    simp [String.data_append]
  rw [this]
  exact list_lt_append_cons _ _ _

/-- In a strictly sorted list, the index map is strictly monotone. -/
theorem indexOf_lt_indexOf_of_sorted {α : Type} [LinearOrder α] [DecidableEq α]
    {l : List α} (hs : l.Sorted (· < ·)) {a b : α}
    (ha : a ∈ l) (hb : b ∈ l) (hab : a < b) :
    l.indexOf a < l.indexOf b := by
  induction l with
  | nil => cases ha
  | cons x xs ih =>
    rcases List.sorted_cons.mp hs with ⟨hx, hxs⟩
    by_cases hax : a = x
    · subst hax
      have hbx : b ≠ a := ne_of_gt hab
      have hbxs : b ∈ xs := by
        rcases List.mem_cons.mp hb with h | h
        · exact absurd h hbx
        · exact h
      rw [List.indexOf_cons_self]
      rw [List.indexOf_cons_ne _ (fun he => hbx he.symm)]
      exact Nat.succ_pos _
    · have haxs : a ∈ xs := by
        rcases List.mem_cons.mp ha with h | h
        · exact absurd h hax
        · exact h
      have hbx : b ≠ x := by
        intro he
        subst he
        exact absurd hab (not_lt_of_gt (hx a haxs))
      have hbxs : b ∈ xs := by
        rcases List.mem_cons.mp hb with h | h
        · exact absurd h hbx
        · exact h
      rw [List.indexOf_cons_ne _ (fun he => hax he.symm),
        List.indexOf_cons_ne _ (fun he => hbx he.symm)]
      exact Nat.succ_lt_succ (ih hxs haxs hbxs)

/-! ### C5 / C6: ordering invariants of the reconciliation plan -/

/-- C5: in the create phase, because `to_upload` is traversed in ascending
sorted order, a slash-delimited ancestor directory's create action is emitted
strictly before any of its descendants' actions. -/
theorem C5_create_order (L : Snapshot LocalEntry) (R : Snapshot RemoteAttr) (A B : String)
    (hA : A ∈ L.paths \ R.paths) (hB : B ∈ L.paths \ R.paths)
    (hAB : isUnder A B) (hAdir : (L.entry A).is_dir = true) :
    ∃ i j : ℕ, i < j ∧
      (createPlan L R)[i]? = some (SyncAction.mkdir A) ∧
      (createPlan L R)[j]? = some (if (L.entry B).is_dir then SyncAction.mkdir B
        else SyncAction.upload B) := by
  set l := sortAsc (L.paths \ R.paths) with hl
  have hsort : l.Sorted (· < ·) := sortAsc_sorted_lt _
  have hAmem : A ∈ l := mem_sortAsc.mpr hA
  have hBmem : B ∈ l := mem_sortAsc.mpr hB
  refine ⟨l.indexOf A, l.indexOf B,
    indexOf_lt_indexOf_of_sorted hsort hAmem hBmem (lt_of_isUnder hAB), ?_, ?_⟩
  · show (l.map _)[l.indexOf A]? = _
    rw [List.getElem?_map, ← List.get?_eq_getElem?, List.indexOf_get? hAmem]
    simp [hAdir]
  · show (l.map _)[l.indexOf B]? = _
    rw [List.getElem?_map, ← List.get?_eq_getElem?, List.indexOf_get? hBmem]
    rfl

/-- In a strictly descending list, the index map is strictly antitone. -/
theorem indexOf_lt_indexOf_of_sorted_gt {α : Type} [LinearOrder α] [DecidableEq α]
    {l : List α} (hs : l.Sorted (· > ·)) {a b : α}
    (ha : a ∈ l) (hb : b ∈ l) (hab : a < b) :
    l.indexOf b < l.indexOf a := by
  induction l with
  | nil => cases ha
  | cons x xs ih =>
    rcases List.sorted_cons.mp hs with ⟨hx, hxs⟩
    by_cases hbx : b = x
    · subst hbx
      have hax : a ≠ b := ne_of_lt hab
      have haxs : a ∈ xs := by
        rcases List.mem_cons.mp ha with h | h
        · exact absurd h hax
        · exact h
      rw [List.indexOf_cons_self]
      rw [List.indexOf_cons_ne _ (fun he => hax he.symm)]
      exact Nat.succ_pos _
    · have hbxs : b ∈ xs := by
        rcases List.mem_cons.mp hb with h | h
        · exact absurd h hbx
        · exact h
      have hax : a ≠ x := by
        intro he
        subst he
        exact absurd hab (not_lt_of_gt (hx b hbxs))
      have haxs : a ∈ xs := by
        rcases List.mem_cons.mp ha with h | h
        · exact absurd h hax
        · exact h
      rw [List.indexOf_cons_ne _ (fun he => hbx he.symm),
        List.indexOf_cons_ne _ (fun he => hax he.symm)]
      exact Nat.succ_lt_succ (ih hxs haxs hbxs)

/-- C6: in the delete phase (deletion enabled), because `to_delete` is
traversed in descending sorted order, a descendant's remove action is emitted
strictly before its slash-delimited ancestor directory's remove action. -/
theorem C6_delete_order (L : Snapshot LocalEntry) (R : Snapshot RemoteAttr) (A B : String)
    (hA : A ∈ R.paths \ L.paths) (hB : B ∈ R.paths \ L.paths)
    (hAB : isUnder A B) (hAdir : (R.entry A).is_dir = true) :
    ∃ i j : ℕ, i < j ∧
      (deletePlan L R true)[i]? = some (if (R.entry B).is_dir then SyncAction.removeDir B
        else SyncAction.removeFile B) ∧
      (deletePlan L R true)[j]? = some (SyncAction.removeDir A) := by
  have hplan : deletePlan L R true = ((sortAsc (R.paths \ L.paths)).reverse).map (fun p =>
      if (R.entry p).is_dir then SyncAction.removeDir p else SyncAction.removeFile p) := by
    rfl
  set l := (sortAsc (R.paths \ L.paths)).reverse with hl
  have hsort : l.Sorted (· > ·) := List.pairwise_reverse.mpr (sortAsc_sorted_lt _)
  have hAmem : A ∈ l := by
    rw [hl, List.mem_reverse]
    exact mem_sortAsc.mpr hA
  have hBmem : B ∈ l := by
    rw [hl, List.mem_reverse]
    exact mem_sortAsc.mpr hB
  refine ⟨l.indexOf B, l.indexOf A,
    indexOf_lt_indexOf_of_sorted_gt hsort hAmem hBmem (lt_of_isUnder hAB), ?_, ?_⟩
  · rw [hplan]
    show (l.map _)[l.indexOf B]? = _
    rw [List.getElem?_map, ← List.get?_eq_getElem?, List.indexOf_get? hBmem]
    rfl
  · rw [hplan]
    show (l.map _)[l.indexOf A]? = _
    rw [List.getElem?_map, ← List.get?_eq_getElem?, List.indexOf_get? hAmem]
    simp [hAdir]

/-! ### Arithmetic facts about `pyInt` -/

theorem pyInt_eq (q : ℚ) : pyInt q = if q < 0 then -(⌊-q⌋) else ⌊q⌋ := by
  unfold pyInt
  have hnum : q.num < 0 ↔ q < 0 := Rat.num_neg
  by_cases hq : q < 0
  · rw [if_pos (hnum.mpr hq), if_pos hq]
    have : ⌊-q⌋ = (-q).num / ((-q).den : ℤ) := Rat.floor_def
    rw [this, Rat.neg_num, Rat.neg_den]
  · rw [if_neg (fun h => hq (hnum.mp h)), if_neg hq]
    exact (Rat.floor_def).symm

theorem pyInt_intCast (n : ℤ) : pyInt ((n : ℤ) : ℚ) = n := by
  rw [pyInt_eq]
  by_cases hn : ((n : ℤ) : ℚ) < 0
  · rw [if_pos hn]
    have : -((n : ℤ) : ℚ) = ((-n : ℤ) : ℚ) := by push_cast; ring
    rw [this, Int.floor_intCast]
    ring
  · rw [if_neg hn, Int.floor_intCast]

theorem pyInt_le_of_le {q : ℚ} {m : ℤ} (h : q ≤ (m : ℚ)) : pyInt q ≤ m := by
  rw [pyInt_eq]
  by_cases hq : q < 0
  · rw [if_pos hq]
    have h1 : ((-m : ℤ) : ℚ) ≤ -q := by push_cast; linarith
    have h2 : -m ≤ ⌊-q⌋ := Int.le_floor.mpr h1
    omega
  · rw [if_neg hq]
    have := Int.floor_le_floor h
    rwa [Int.floor_intCast] at this

/-! ### Membership lemmas for the three phases of the plan -/

theorem mem_createPlan {L : Snapshot LocalEntry} {R : Snapshot RemoteAttr} {a : SyncAction} :
    a ∈ createPlan L R ↔ ∃ p, p ∈ L.paths \ R.paths ∧
      a = (if (L.entry p).is_dir then SyncAction.mkdir p else SyncAction.upload p) := by
  unfold createPlan
  rw [List.mem_map]
  constructor
  · rintro ⟨x, hx, hfx⟩
    exact ⟨x, mem_sortAsc.mp hx, hfx.symm⟩
  · rintro ⟨x, hx, hfx⟩
    exact ⟨x, mem_sortAsc.mpr hx, hfx.symm⟩

theorem upload_mem_comparePlan {L : Snapshot LocalEntry} {R : Snapshot RemoteAttr} {p : String} :
    SyncAction.upload p ∈ comparePlan L R ↔
      p ∈ L.paths ∧ p ∈ R.paths ∧ (L.entry p).is_dir = false ∧
        needsUpload (L.entry p) (R.entry p) = true := by
  unfold comparePlan
  rw [List.mem_filterMap]
  constructor
  · rintro ⟨x, hx, hfx⟩
    rw [mem_sortAsc] at hx
    by_cases hdir : (L.entry x).is_dir = true
    · rw [if_pos hdir] at hfx
      cases hfx
    · rw [if_neg hdir] at hfx
      by_cases hneed : needsUpload (L.entry x) (R.entry x) = true
      · rw [if_pos hneed] at hfx
        have hxp : x = p := by
          have := Option.some.inj hfx
          injection this
        subst hxp
        rcases Finset.mem_inter.mp hx with ⟨h1, h2⟩
        have hdir' : (L.entry x).is_dir = false := by
          revert hdir
          cases (L.entry x).is_dir <;> simp
        exact ⟨h1, h2, hdir', hneed⟩
      · rw [if_neg hneed] at hfx
        cases hfx
  · rintro ⟨h1, h2, hdir, hneed⟩
    refine ⟨p, mem_sortAsc.mpr (Finset.mem_inter.mpr ⟨h1, h2⟩), ?_⟩
    rw [if_neg (by simp [hdir]), if_pos hneed]

theorem mem_comparePlan_shape {L : Snapshot LocalEntry} {R : Snapshot RemoteAttr}
    {a : SyncAction} (h : a ∈ comparePlan L R) : ∃ p, a = SyncAction.upload p := by
  unfold comparePlan at h
  rw [List.mem_filterMap] at h
  rcases h with ⟨x, _, hfx⟩
  by_cases hdir : (L.entry x).is_dir = true
  · rw [if_pos hdir] at hfx
    cases hfx
  · rw [if_neg hdir] at hfx
    by_cases hneed : needsUpload (L.entry x) (R.entry x) = true
    · rw [if_pos hneed] at hfx
      exact ⟨x, (Option.some.inj hfx).symm⟩
    · rw [if_neg hneed] at hfx
      cases hfx

theorem mem_deletePlan {L : Snapshot LocalEntry} {R : Snapshot RemoteAttr} {allow : Bool}
    {a : SyncAction} :
    a ∈ deletePlan L R allow ↔ allow = true ∧ ∃ p, p ∈ R.paths \ L.paths ∧
      a = (if (R.entry p).is_dir then SyncAction.removeDir p else SyncAction.removeFile p) := by
  unfold deletePlan
  cases allow with
  | false => simp
  | true =>
    rw [if_pos rfl]
    simp only [List.mem_map, List.mem_reverse]
    constructor
    · rintro ⟨x, hx, hfx⟩
      exact ⟨by simp, x, mem_sortAsc.mp hx, hfx.symm⟩
    · rintro ⟨-, x, hx, hfx⟩
      exact ⟨x, mem_sortAsc.mpr hx, hfx.symm⟩

/-! ### C2: the compare-phase upload condition -/

/-- Local mtime `102.5` as a reduced fraction (kernel-evaluable). -/
def q102half : ℚ := ⟨205, 2, by norm_num, by norm_num⟩

theorem q102half_eq : q102half = (205 : ℚ) / 2 := by
  rw [← Rat.num_div_den q102half]
  norm_num [q102half]

def Lc2 : Snapshot LocalEntry := ⟨{"f"}, fun _ => ⟨false, q102half, 10⟩⟩

def Rc2 : Snapshot RemoteAttr := ⟨{"f"}, fun _ => ⟨false, 101, 10⟩⟩

/-- C2 counterexample: `f` is a file in both snapshots, its local modification
time (102.5) exceeds the remote one (101) by 1.5 > 1 second and the sizes are
equal, yet the pass emits no upload — because line 187 truncates the local
mtime with `int()` before comparing, `int(102.5) = 102 ≤ 101 + 1`.  This
refutes the claimed "if and only if" (its right-to-left direction). -/
theorem C2_counterexample :
    (Lc2.entry "f").mtime - (((Rc2.entry "f").st_mtime : ℤ) : ℚ) > 1 ∧
    (Lc2.entry "f").size = (Rc2.entry "f").st_size ∧
    "f" ∈ Lc2.paths ∧ "f" ∈ Rc2.paths ∧ (Lc2.entry "f").is_dir = false ∧
    SyncAction.upload "f" ∉ initialSyncActions Lc2 Rc2 false := by
  refine ⟨?_, by decide, by decide, by decide, by decide, by decide⟩
  show q102half - ((101 : ℤ) : ℚ) > 1
  rw [q102half_eq]
  norm_num

/-- C2 (amended): for a file present in both snapshots, an upload is emitted
in the compare phase iff the *truncated* (`int()`) local modification time
exceeds the remote modification time by more than 1 second, or the sizes
differ; a local file of equal size whose (untruncated) timestamp is equal to
or older than the remote one produces no action at all, and a timestamp
exactly 2 seconds newer produces an upload. -/
theorem C2_upload_condition (L : Snapshot LocalEntry) (R : Snapshot RemoteAttr) (p : String)
    (hL : p ∈ L.paths) (hR : p ∈ R.paths) (hfile : (L.entry p).is_dir = false) :
    (SyncAction.upload p ∈ comparePlan L R ↔
      (pyInt (L.entry p).mtime > (R.entry p).st_mtime + 1 ∨
        (L.entry p).size ≠ (R.entry p).st_size)) ∧
    ((L.entry p).mtime ≤ (((R.entry p).st_mtime : ℤ) : ℚ) →
      (L.entry p).size = (R.entry p).st_size →
      ∀ allow, SyncAction.upload p ∉ initialSyncActions L R allow) ∧
    ((L.entry p).mtime = (((R.entry p).st_mtime : ℤ) : ℚ) + 2 →
      SyncAction.upload p ∈ comparePlan L R) := by
  have hiff : SyncAction.upload p ∈ comparePlan L R ↔
      (pyInt (L.entry p).mtime > (R.entry p).st_mtime + 1 ∨
        (L.entry p).size ≠ (R.entry p).st_size) := by
    rw [upload_mem_comparePlan]
    constructor
    · rintro ⟨-, -, -, hneed⟩
      unfold needsUpload at hneed
      rcases Bool.or_eq_true _ _ |>.mp hneed with h | h
      · exact Or.inl (by exact_mod_cast of_decide_eq_true h)
      · exact Or.inr (of_decide_eq_true h)
    · intro h
      refine ⟨hL, hR, hfile, ?_⟩
      unfold needsUpload
      rcases h with h | h
      · exact Bool.or_eq_true _ _ |>.mpr (Or.inl (decide_eq_true h))
      · exact Bool.or_eq_true _ _ |>.mpr (Or.inr (decide_eq_true h))
  refine ⟨hiff, ?_, ?_⟩
  · intro hmt hsz allow hmem
    simp only [initialSyncActions, List.mem_append] at hmem
    rcases hmem with (h | h) | h
    · rcases mem_createPlan.mp h with ⟨q, hq, ha⟩
      have hqp : q = p := by
        revert ha
        by_cases hd : (L.entry q).is_dir = true
        · rw [if_pos hd]
          intro ha
          cases ha
        · rw [if_neg hd]
          intro ha
          injection ha with h'
          exact h'.symm
      subst hqp
      exact absurd hR (Finset.mem_sdiff.mp hq).2
    · have := hiff.mp h
      rcases this with h' | h'
      · have hle : pyInt (L.entry p).mtime ≤ (R.entry p).st_mtime :=
          pyInt_le_of_le hmt
        omega
      · exact h' hsz
    · rcases mem_deletePlan.mp h with ⟨-, q, -, ha⟩
      revert ha
      by_cases hd : (R.entry q).is_dir = true
      · rw [if_pos hd]
        intro ha
        cases ha
      · rw [if_neg hd]
        intro ha
        cases ha
  · intro hmt
    refine hiff.mpr (Or.inl ?_)
    have : (L.entry p).mtime = (((R.entry p).st_mtime + 2 : ℤ) : ℚ) := by
      rw [hmt]
      push_cast
      ring
    rw [this, pyInt_intCast]
    omega

def Lw2 : Snapshot LocalEntry := ⟨{"f"}, fun _ => ⟨false, ((103 : ℤ) : ℚ), 10⟩⟩

def Rw2 : Snapshot RemoteAttr := ⟨{"f"}, fun _ => ⟨false, 101, 10⟩⟩

theorem C2_upload_condition_witness :
    (SyncAction.upload "f" ∈ comparePlan Lw2 Rw2 ↔
      (pyInt (Lw2.entry "f").mtime > (Rw2.entry "f").st_mtime + 1 ∨
        (Lw2.entry "f").size ≠ (Rw2.entry "f").st_size)) ∧
    ((Lw2.entry "f").mtime ≤ (((Rw2.entry "f").st_mtime : ℤ) : ℚ) →
      (Lw2.entry "f").size = (Rw2.entry "f").st_size →
      ∀ allow, SyncAction.upload "f" ∉ initialSyncActions Lw2 Rw2 allow) ∧
    ((Lw2.entry "f").mtime = (((Rw2.entry "f").st_mtime : ℤ) : ℚ) + 2 →
      SyncAction.upload "f" ∈ comparePlan Lw2 Rw2) :=
  C2_upload_condition Lw2 Rw2 "f" (by decide) (by decide) (by decide)

/-! ### C7: deletion disabled means no remove actions, count reported -/

/-- C7: when the deletion policy does not permit deletion, the reconciliation
pass contains no remove-file or remove-directory action for any path, and if
there are extra remote items their count is reported. -/
theorem C7_no_deletion_when_disabled (L : Snapshot LocalEntry) (R : Snapshot RemoteAttr) :
    (∀ p : String, SyncAction.removeFile p ∉ initialSyncActions L R false ∧
        SyncAction.removeDir p ∉ initialSyncActions L R false) ∧
    (R.paths \ L.paths ≠ ∅ → extraReport L R false = some (R.paths \ L.paths).card) := by
  have hgen : ∀ a, a ∈ initialSyncActions L R false →
      ∃ q, a = SyncAction.mkdir q ∨ a = SyncAction.upload q := by
    intro a ha
    simp only [initialSyncActions, List.mem_append] at ha
    rcases ha with (h | h) | h
    · rcases mem_createPlan.mp h with ⟨q, -, hq⟩
      revert hq
      by_cases hd : (L.entry q).is_dir = true
      · rw [if_pos hd]
        intro hq
        exact ⟨q, Or.inl hq⟩
      · rw [if_neg hd]
        intro hq
        exact ⟨q, Or.inr hq⟩
    · rcases mem_comparePlan_shape h with ⟨q, hq⟩
      exact ⟨q, Or.inr hq⟩
    · rcases mem_deletePlan.mp h with ⟨hfalse, -⟩
      cases hfalse
  constructor
  · intro p
    constructor <;> intro hmem <;> rcases hgen _ hmem with ⟨q, h | h⟩ <;> cases h
  · intro hne
    unfold extraReport
    rw [if_neg (fun h => Bool.noConfusion h), if_neg hne]

def Lw7 : Snapshot LocalEntry := ⟨∅, fun _ => ⟨false, 0, 0⟩⟩

def Rw7 : Snapshot RemoteAttr := ⟨{"old.log"}, fun _ => ⟨false, 3, 7⟩⟩

theorem C7_no_deletion_when_disabled_witness :
    SyncAction.removeFile "old.log" ∉ initialSyncActions Lw7 Rw7 false ∧
    extraReport Lw7 Rw7 false = some 1 := by
  obtain ⟨h1, h2⟩ := C7_no_deletion_when_disabled Lw7 Rw7
  refine ⟨(h1 "old.log").1, ?_⟩
  rw [h2 (by decide)]
  decide

/-! ### Witnesses for C5 and C6 -/

def Lw5 : Snapshot LocalEntry :=
  ⟨{"a", "a/x.py"}, fun p => if p = "a" then ⟨true, 0, 0⟩ else ⟨false, ((5 : ℤ) : ℚ), 3⟩⟩

def Rw5 : Snapshot RemoteAttr := ⟨∅, fun _ => ⟨false, 0, 0⟩⟩

theorem C5_create_order_witness :
    ∃ i j : ℕ, i < j ∧
      (createPlan Lw5 Rw5)[i]? = some (SyncAction.mkdir "a") ∧
      (createPlan Lw5 Rw5)[j]? = some (if (Lw5.entry "a/x.py").is_dir then
        SyncAction.mkdir "a/x.py" else SyncAction.upload "a/x.py") :=
  C5_create_order Lw5 Rw5 "a" "a/x.py" (by decide) (by decide) ⟨"x.py", by decide⟩ (by decide)

def Lw6 : Snapshot LocalEntry := ⟨∅, fun _ => ⟨false, 0, 0⟩⟩

def Rw6 : Snapshot RemoteAttr :=
  ⟨{"stale", "stale/file"}, fun p => if p = "stale" then ⟨true, 0, 0⟩ else ⟨false, 3, 7⟩⟩

theorem C6_delete_order_witness :
    ∃ i j : ℕ, i < j ∧
      (deletePlan Lw6 Rw6 true)[i]? = some (if (Rw6.entry "stale/file").is_dir then
        SyncAction.removeDir "stale/file" else SyncAction.removeFile "stale/file") ∧
      (deletePlan Lw6 Rw6 true)[j]? = some (SyncAction.removeDir "stale") :=
  C6_delete_order Lw6 Rw6 "stale" "stale/file" (by decide) (by decide)
    ⟨"file", by decide⟩ (by decide)

/-! ## Live event translation (`sync_worker`, lines 223–309) -/

/-- The per-target configuration fields the watcher reads. -/
structure SyncConfig where
  local_path : String
  remote_path : String
  exclude_patterns : List String
  source_code_only : Bool

/-- Lines 274–279: the exclusion check a live inotify event undergoes in
`sync_worker`: the local-root-relative path gets a trailing slash when the
event's `ISDIR` bit is set, and — unlike `walk_remote` (line 102) and
`add_watch_recursively` (line 235), which pass `source_code_only and (not is_dir)`
— the configured `source_code_only` flag is passed through *unconditionally*,
so the only protection for directories is the `os.path.isdir` query inside
`is_excluded`, performed on the root-relative path against the process working
directory. -/
def eventExcluded (rel_path : String) (isDirEvent : Bool) (exclude_patterns : List String)
    (source_code_only : Bool) (fsIsDir : String → Bool) : Bool :=
  is_excluded (rel_path ++ (if isDirEvent then "/" else "")) exclude_patterns
    source_code_only fsIsDir

/-- C1 (evaluation at the failing input): a directory event for `newdir` with
no exclusion patterns and `source_code_only` enabled is *discarded* whenever
`os.path.isdir "newdir/"` answers `false` — which is unavoidable for a
directory-deletion event (the directory is already gone) and is the typical
situation for a creation event too, because the relative path is resolved
against the process working directory, not the watched root.  The discard
comes from the extension allow-list: `basename "newdir/" = ""` has no
extension.  Toggling `source_code_only` off changes the decision, which the
claim says can never happen for a directory. -/
theorem C1_directory_event_discarded :
    eventExcluded "newdir" true [] true (fun _ => false) = true ∧
    eventExcluded "newdir" true [] false (fun _ => false) = false :=
  ⟨by decide, by decide⟩

/-- The watch registry together with the inotify handle allocator:
`wdMap` is the `wd_map` dict, `nextWd` the next fresh watch descriptor. -/
structure WatchState where
  nextWd : ℕ
  wdMap : ℕ → Option String

/-- `inotify.add_watch(path, …)` followed by `wd_map[wd] = path` (lines 238–239). -/
def WatchState.register (st : WatchState) (path : String) : WatchState :=
  ⟨st.nextWd + 1, fun w => if w = st.nextWd then some path else st.wdMap w⟩

/-- Well-formedness: all registered descriptors are below the allocator. -/
def WatchState.WF (st : WatchState) : Prop :=
  ∀ w, st.nextWd ≤ w → st.wdMap w = none

/-- Every entry of the first registry is present, unchanged, in the second. -/
def WatchExtends (st st' : WatchState) : Prop :=
  ∀ w p, st.wdMap w = some p → st'.wdMap w = some p

theorem WatchExtends.refl (st : WatchState) : WatchExtends st st := fun _ _ h => h

theorem WatchExtends.trans {s1 s2 s3 : WatchState}
    (h12 : WatchExtends s1 s2) (h23 : WatchExtends s2 s3) : WatchExtends s1 s3 :=
  fun w p h => h23 w p (h12 w p h)

theorem register_extends {st : WatchState} (hWF : st.WF) (path : String) :
    WatchExtends st (st.register path) := by
  intro w p h
  unfold WatchState.register
  by_cases hw : w = st.nextWd
  · rw [hw, hWF st.nextWd (le_refl _)] at h
    cases h
  · simpa [hw] using h

theorem register_WF {st : WatchState} (hWF : st.WF) (path : String) :
    (st.register path).WF := by
  intro w hw
  unfold WatchState.register at hw ⊢
  simp only at hw ⊢
  have h1 : w ≠ st.nextWd := by omega
  rw [if_neg h1]
  exact hWF w (by omega)

mutual
/-- The local filesystem below a directory, as seen by `os.listdir` /
`os.path.isdir`.  (A mutual pair instead of a `List`-nested inductive so that
recursion over it is structural and kernel-evaluable.) -/
inductive FTree where
  | node : FChildren → FTree
/-- The children of a directory: each carries its name, whether it is a
directory, and its own subtree. -/
inductive FChildren where
  | nil : FChildren
  | cons (child_name : String) (isDir : Bool) (sub : FTree) (rest : FChildren) : FChildren
end

/-- Lines 232–233: the path relative to the local root, with `.` (the root
itself) replaced by the empty string. -/
def watchRel (cfg : SyncConfig) (absPath : String) : String :=
  if pyRelpath absPath cfg.local_path = "." then "" else pyRelpath absPath cfg.local_path

mutual
/-- The DFS preorder sequence of paths that `add_watch_recursively`
(lines 230–245) registers, starting from an existing entity at `absPath` of
kind `isDir` with subtree `t` (when `os.path.exists` is false the function
returns without registering, which coincides with the excluded branch).  Per
call: the exclusion check of lines 232–235 (the `os.path.isdir(path)` there is
on the absolute path of an existing entity, hence the real kind `!isDir`); if
not excluded the path itself is registered, and for a directory the
`for item in os.listdir(path)` loop of lines 240–243 recurses into child
directories in listing order.  For a non-directory argument `os.listdir`
raises after the registration and the `except` at line 244 swallows the
error, so only the registration remains. -/
def watchPaths (cfg : SyncConfig) (fsIsDir : String → Bool) (absPath : String)
    (isDir : Bool) : FTree → List String
  | FTree.node cs =>
    if is_excluded (watchRel cfg absPath ++ "/") cfg.exclude_patterns
        (!isDir && cfg.source_code_only) fsIsDir then []
    else if isDir then absPath :: childWatchPaths cfg fsIsDir absPath cs
    else [absPath]

def childWatchPaths (cfg : SyncConfig) (fsIsDir : String → Bool) (absPath : String) :
    FChildren → List String
  | FChildren.nil => []
  | FChildren.cons child_name true sub rest =>
    watchPaths cfg fsIsDir (pyJoin absPath child_name) true sub ++
      childWatchPaths cfg fsIsDir absPath rest
  | FChildren.cons _ false _ rest => childWatchPaths cfg fsIsDir absPath rest
end

/-- `add_watch_recursively`: the watches are registered
(`wd = inotify.add_watch(...)`; `wd_map[wd] = path`) one by one, in the DFS
preorder in which the Python recursion performs them. -/
def addWatchRec (cfg : SyncConfig) (fsIsDir : String → Bool) (absPath : String)
    (isDir : Bool) (t : FTree) (st : WatchState) : WatchState :=
  (watchPaths cfg fsIsDir absPath isDir t).foldl WatchState.register st

/-- One polled inotify event (lines 270–277): the watch descriptor it arrived
on, the child name, and the relevant mask bits. -/
structure IEvent where
  wd : ℕ
  name : String
  isDir : Bool
  isCreate : Bool
  isModify : Bool
  isDelete : Bool
deriving DecidableEq

/-- An exception raised by an SFTP operation. -/
inductive SftpErr where
  | err : SftpErr
deriving DecidableEq

/-- One iteration of the event-loop body (lines 270–298).  `exec` performs the
remote SFTP call for an action (carrying the root-relative path, from which
the source derives the remote absolute path), returning `Except.error` when
the call raises; `treeAt` gives the current filesystem subtree at an absolute
path, used by `add_watch_recursively` after a directory-creation event.
Returns the state after the event, the successfully executed action (if any),
and the error that aborted the body (if any) — the source wraps none of these
calls in a local `try`, so an exception propagates to the handlers at lines
300–309, i.e. out of the watching loop. -/
def processEvent (cfg : SyncConfig) (fsIsDir : String → Bool) (treeAt : String → FTree)
    (exec : SyncAction → Except SftpErr Unit) (st : WatchState) (ev : IEvent) :
    WatchState × Option SyncAction × Option SftpErr :=
  match st.wdMap ev.wd with
  | none => (st, none, none)
  | some parent_dir_path =>
    if eventExcluded (pyRelpath (pyJoin parent_dir_path ev.name) cfg.local_path) ev.isDir
        cfg.exclude_patterns cfg.source_code_only fsIsDir then
      (st, none, none)
    else if ev.isCreate then
      if ev.isDir then
        match exec (SyncAction.mkdir (pyRelpath (pyJoin parent_dir_path ev.name) cfg.local_path)) with
        | Except.ok _ =>
          (addWatchRec cfg fsIsDir (pyJoin parent_dir_path ev.name) true
              (treeAt (pyJoin parent_dir_path ev.name)) st,
            some (SyncAction.mkdir (pyRelpath (pyJoin parent_dir_path ev.name) cfg.local_path)),
            none)
        | Except.error e => (st, none, some e)
      else
        match exec (SyncAction.upload (pyRelpath (pyJoin parent_dir_path ev.name) cfg.local_path)) with
        | Except.ok _ =>
          (st, some (SyncAction.upload (pyRelpath (pyJoin parent_dir_path ev.name) cfg.local_path)),
            none)
        | Except.error e => (st, none, some e)
    else if ev.isModify && !ev.isDir then
      match exec (SyncAction.upload (pyRelpath (pyJoin parent_dir_path ev.name) cfg.local_path)) with
      | Except.ok _ =>
        (st, some (SyncAction.upload (pyRelpath (pyJoin parent_dir_path ev.name) cfg.local_path)),
          none)
      | Except.error e => (st, none, some e)
    else if ev.isDelete then
      if ev.isDir then
        match exec (SyncAction.removeDir (pyRelpath (pyJoin parent_dir_path ev.name) cfg.local_path)) with
        | Except.ok _ =>
          (st, some (SyncAction.removeDir (pyRelpath (pyJoin parent_dir_path ev.name) cfg.local_path)),
            none)
        | Except.error e => (st, none, some e)
      else
        match exec (SyncAction.removeFile (pyRelpath (pyJoin parent_dir_path ev.name) cfg.local_path)) with
        | Except.ok _ =>
          (st, some (SyncAction.removeFile (pyRelpath (pyJoin parent_dir_path ev.name) cfg.local_path)),
            none)
        | Except.error e => (st, none, some e)
    else (st, none, none)

/-- Processing of one polled batch (`for event in inotify.read(timeout=1)`,
lines 270–298): events are handled strictly in order; the first exception
aborts the batch, and the remaining events' actions are never attempted.
Returns the successfully executed actions in order, the final watch state,
and the aborting error, if any. -/
def runEvents (cfg : SyncConfig) (fsIsDir : String → Bool) (treeAt : String → FTree)
    (exec : SyncAction → Except SftpErr Unit) :
    WatchState → List IEvent → List SyncAction × WatchState × Option SftpErr
  | st, [] => ([], st, none)
  | st, ev :: rest =>
    match processEvent cfg fsIsDir treeAt exec st ev with
    | (st', _, some e) => ([], st', some e)
    | (st', act?, none) =>
      ((act?.toList) ++ (runEvents cfg fsIsDir treeAt exec st' rest).1,
        (runEvents cfg fsIsDir treeAt exec st' rest).2.1,
        (runEvents cfg fsIsDir treeAt exec st' rest).2.2)

/-- What the worker does after a batch, lines 269 and 300–309: with no
exception the inner `while True` polls again; an exception escaping the event
loop is caught by the worker-level handlers, which log, sleep and re-enter the
outer connection loop (reconnect) — the worker never crashes on it. -/
inductive WorkerStep where
  | keepWatching
  | reconnect
deriving DecidableEq

def workerAfterBatch (e : Option SftpErr) : WorkerStep :=
  match e with
  | some _ => WorkerStep.reconnect
  | none => WorkerStep.keepWatching

/-- One iteration of the outer reconnection loop (lines 254–309), as it
affects the watch registry. -/
inductive ConnOutcome where
  | connectFailed
  | session (events : List IEvent)

/-- A failed connection attempt (lines 257–260) sleeps and retries, leaving
the registry untouched; a connected session runs the event loop on the events
it observes until an exception aborts it (handlers at lines 300–309), after
which the next iteration starts from the resulting registry.  `wd_map` is a
local of `sync_worker`, created once at line 228 — no branch of the loop ever
clears or rebuilds it. -/
def workerIteration (cfg : SyncConfig) (fsIsDir : String → Bool) (treeAt : String → FTree)
    (exec : SyncAction → Except SftpErr Unit) (st : WatchState) :
    ConnOutcome → WatchState
  | ConnOutcome.connectFailed => st
  | ConnOutcome.session evs => (runEvents cfg fsIsDir treeAt exec st evs).2.1

/-! ### Monotonicity of the watch registry -/

theorem foldl_register_mono :
    ∀ (ps : List String) (st : WatchState), st.WF →
      WatchExtends st (ps.foldl WatchState.register st) ∧
      (ps.foldl WatchState.register st).WF := by
  intro ps
  induction ps with
  | nil => exact fun st h => ⟨WatchExtends.refl st, h⟩
  | cons p rest ih =>
    intro st h
    rw [List.foldl_cons]
    have h1 := ih (st.register p) (register_WF h p)
    exact ⟨(register_extends h p).trans h1.1, h1.2⟩

theorem addWatchRec_mono (cfg : SyncConfig) (fsIsDir : String → Bool) (absPath : String)
    (isDir : Bool) (t : FTree) (st : WatchState) (h : st.WF) :
    WatchExtends st (addWatchRec cfg fsIsDir absPath isDir t st) ∧
    (addWatchRec cfg fsIsDir absPath isDir t st).WF :=
  foldl_register_mono (watchPaths cfg fsIsDir absPath isDir t) st h

set_option maxHeartbeats 1000000 in
theorem processEvent_mono (cfg : SyncConfig) (fsIsDir : String → Bool)
    (treeAt : String → FTree) (exec : SyncAction → Except SftpErr Unit)
    (st : WatchState) (ev : IEvent) (h : st.WF) :
    WatchExtends st (processEvent cfg fsIsDir treeAt exec st ev).1 ∧
    (processEvent cfg fsIsDir treeAt exec st ev).1.WF := by
  unfold processEvent
  repeat' split
  all_goals
    first
      | exact ⟨WatchExtends.refl st, h⟩
      | exact addWatchRec_mono cfg fsIsDir _ true _ st h

theorem runEvents_mono (cfg : SyncConfig) (fsIsDir : String → Bool)
    (treeAt : String → FTree) (exec : SyncAction → Except SftpErr Unit) :
    ∀ (evs : List IEvent) (st : WatchState), st.WF →
      WatchExtends st (runEvents cfg fsIsDir treeAt exec st evs).2.1 ∧
      (runEvents cfg fsIsDir treeAt exec st evs).2.1.WF := by
  intro evs
  induction evs with
  | nil => intro st h; exact ⟨WatchExtends.refl st, h⟩
  | cons ev rest ih =>
    intro st h
    have hpe := processEvent_mono cfg fsIsDir treeAt exec st ev h
    rcases hres : processEvent cfg fsIsDir treeAt exec st ev with ⟨st1, act1, err1⟩
    rw [hres] at hpe
    unfold runEvents
    rw [hres]
    cases err1 with
    | some e => exact hpe
    | none =>
      have hrest := ih st1 hpe.2
      exact ⟨hpe.1.trans hrest.1, hrest.2⟩

/-! ### C9: the watch registry grows monotonically and survives reconnects -/

/-- C9: every operation of the worker only adds watch-handle entries — no
entry is ever removed or overwritten, even when the watched directory is
deleted (a delete event leaves the registry untouched); an event arriving on a
handle absent from the registry is discarded without any action or registry
change; and the registry passes through a DISCONNECTED-and-reconnect
transition unchanged, so re-entering the watching phase resumes with the
already-known watches (no branch of the worker loop re-creates `wd_map`). -/
theorem C9_registry_monotone (cfg : SyncConfig) (fsIsDir : String → Bool)
    (treeAt : String → FTree) (exec : SyncAction → Except SftpErr Unit)
    (st : WatchState) (hWF : st.WF) :
    (∀ outcome, WatchExtends st (workerIteration cfg fsIsDir treeAt exec st outcome) ∧
      (workerIteration cfg fsIsDir treeAt exec st outcome).WF) ∧
    (∀ ev : IEvent, st.wdMap ev.wd = none →
      processEvent cfg fsIsDir treeAt exec st ev = (st, none, none)) ∧
    workerIteration cfg fsIsDir treeAt exec st ConnOutcome.connectFailed = st := by
  refine ⟨?_, ?_, rfl⟩
  · intro outcome
    cases outcome with
    | connectFailed => exact ⟨WatchExtends.refl st, hWF⟩
    | session evs => exact runEvents_mono cfg fsIsDir treeAt exec evs st hWF
  · intro ev hev
    unfold processEvent
    rw [hev]

def cfgW : SyncConfig := ⟨"/L", "/R", [], false⟩

def stW : WatchState := ⟨2, fun w => if w = 1 then some "/L" else none⟩

theorem stW_WF : stW.WF := by
  intro w hw
  have hw2 : 2 ≤ w := hw
  show (if w = 1 then some "/L" else none) = none
  rw [if_neg (by omega)]

theorem C9_registry_monotone_witness :
    (∀ outcome, WatchExtends stW
        (workerIteration cfgW (fun _ => false) (fun _ => FTree.node FChildren.nil)
          (fun _ => Except.ok ()) stW outcome) ∧
      (workerIteration cfgW (fun _ => false) (fun _ => FTree.node FChildren.nil)
        (fun _ => Except.ok ()) stW outcome).WF) ∧
    (∀ ev : IEvent, stW.wdMap ev.wd = none →
      processEvent cfgW (fun _ => false) (fun _ => FTree.node FChildren.nil)
        (fun _ => Except.ok ()) stW ev = (stW, none, none)) ∧
    workerIteration cfgW (fun _ => false) (fun _ => FTree.node FChildren.nil)
      (fun _ => Except.ok ()) stW ConnOutcome.connectFailed = stW :=
  C9_registry_monotone cfgW (fun _ => false) (fun _ => FTree.node FChildren.nil)
    (fun _ => Except.ok ()) stW stW_WF

/-! ### C3: a failing action during live event processing -/

/-- C3 (amended): a failing upload/remove/mkdir during live event processing
is *not* skipped-and-continued.  The exception aborts the batch — the
remaining already-read events are never processed, no further action is
attempted — and propagates out of the watching loop to the worker-level
handlers (lines 300–309), which log it and drive the worker into its
sleep-and-reconnect path (the worker survives; per-action skip-and-continue
exists only in the reconciliation phase, lines 168–214). -/
theorem C3_event_error_aborts (cfg : SyncConfig) (fsIsDir : String → Bool)
    (treeAt : String → FTree) (exec : SyncAction → Except SftpErr Unit)
    (st : WatchState) (ev : IEvent) (evs : List IEvent) (e : SftpErr)
    (herr : (processEvent cfg fsIsDir treeAt exec st ev).2.2 = some e) :
    runEvents cfg fsIsDir treeAt exec st (ev :: evs) =
      ([], (processEvent cfg fsIsDir treeAt exec st ev).1, some e) ∧
    workerAfterBatch (runEvents cfg fsIsDir treeAt exec st (ev :: evs)).2.2 =
      WorkerStep.reconnect := by
  rcases hres : processEvent cfg fsIsDir treeAt exec st ev with ⟨st1, act1, err1⟩
  rw [hres] at herr
  have herr1 : err1 = some e := herr
  subst herr1
  have h1 : runEvents cfg fsIsDir treeAt exec st (ev :: evs) = ([], st1, some e) := by
    unfold runEvents
    rw [hres]
  constructor
  · exact h1
  · rw [h1]
    rfl

def execC3 : SyncAction → Except SftpErr Unit := fun a =>
  if a = SyncAction.upload "x" then Except.error SftpErr.err else Except.ok ()

def evX : IEvent := ⟨1, "x", false, true, false, false⟩

def evY : IEvent := ⟨1, "y", false, true, false, false⟩

/-- C3 counterexample: the session is healthy for every action except the
upload of `x` (e.g. permission denied on that one file).  A batch holding two
file-creation events, `x` then `y`, is processed: the failure on `x` aborts
the batch — no action is executed at all; in particular the upload of `y`,
which would have succeeded, is never attempted — and the error escapes the
watching loop, contradicting the claim that the action is skipped and event
processing continues with the next event. -/
theorem C3_counterexample :
    (runEvents cfgW (fun _ => false) (fun _ => FTree.node FChildren.nil) execC3 stW
      [evX, evY]).1 = [] ∧
    (runEvents cfgW (fun _ => false) (fun _ => FTree.node FChildren.nil) execC3 stW
      [evX, evY]).2.2 = some SftpErr.err ∧
    execC3 (SyncAction.upload "y") = Except.ok () :=
  ⟨by decide, by decide, rfl⟩

theorem C3_event_error_aborts_witness :
    runEvents cfgW (fun _ => false) (fun _ => FTree.node FChildren.nil) execC3 stW
        (evX :: [evY]) =
      ([], (processEvent cfgW (fun _ => false) (fun _ => FTree.node FChildren.nil) execC3 stW
        evX).1, some SftpErr.err) ∧
    workerAfterBatch (runEvents cfgW (fun _ => false) (fun _ => FTree.node FChildren.nil)
        execC3 stW (evX :: [evY])).2.2 = WorkerStep.reconnect :=
  C3_event_error_aborts cfgW (fun _ => false) (fun _ => FTree.node FChildren.nil) execC3 stW
    evX [evY] SftpErr.err (by decide)

/-! ### C8: idempotence of the reconciliation pass

To re-run the reconciliation after the first pass we need the remote snapshot
that the first pass's own actions produce: `sftp.mkdir` creates a directory
entry, `sftp.put` creates or overwrites a file entry whose size becomes the
local file's size and whose modification time is assigned by the remote host
at upload time (the oracle `T`), and `sftp.rmdir`/`sftp.remove` delete the
entry. -/

def actionPath : SyncAction → String
  | SyncAction.mkdir p => p
  | SyncAction.upload p => p
  | SyncAction.removeFile p => p
  | SyncAction.removeDir p => p

/-- The attribute of an entry just created by `mkdir`/`put` (`T p` is the
remote-assigned modification time; a directory's recorded time and size are
never read by the compare phase, which skips local directories). -/
def insertAttr (L : Snapshot LocalEntry) (T : String → ℤ) : SyncAction → RemoteAttr
  | SyncAction.mkdir p => ⟨true, T p, 0⟩
  | SyncAction.upload p => ⟨false, T p, (L.entry p).size⟩
  | SyncAction.removeFile _ => ⟨false, 0, 0⟩
  | SyncAction.removeDir _ => ⟨false, 0, 0⟩

def applyAction (L : Snapshot LocalEntry) (T : String → ℤ) (R : Snapshot RemoteAttr) :
    SyncAction → Snapshot RemoteAttr
  | SyncAction.mkdir p =>
    ⟨insert p R.paths,
      fun q => if q = p then insertAttr L T (SyncAction.mkdir p) else R.entry q⟩
  | SyncAction.upload p =>
    ⟨insert p R.paths,
      fun q => if q = p then insertAttr L T (SyncAction.upload p) else R.entry q⟩
  | SyncAction.removeFile p => ⟨R.paths.erase p, R.entry⟩
  | SyncAction.removeDir p => ⟨R.paths.erase p, R.entry⟩

def applyPlan (L : Snapshot LocalEntry) (T : String → ℤ) (R : Snapshot RemoteAttr)
    (acts : List SyncAction) : Snapshot RemoteAttr :=
  acts.foldl (applyAction L T) R

/-- The remote snapshot after one reconciliation pass whose actions all
succeed. -/
def syncOnce (L : Snapshot LocalEntry) (R : Snapshot RemoteAttr) (T : String → ℤ)
    (allow : Bool) : Snapshot RemoteAttr :=
  applyPlan L T R (initialSyncActions L R allow)

/-- An action of the create/compare phases. -/
def IsIns (a : SyncAction) : Prop := ∃ p, a = SyncAction.mkdir p ∨ a = SyncAction.upload p

/-- An action of the delete phase. -/
def IsRem (a : SyncAction) : Prop := ∃ p, a = SyncAction.removeFile p ∨ a = SyncAction.removeDir p

theorem applyPlan_untouched (L : Snapshot LocalEntry) (T : String → ℤ) :
    ∀ (acts : List SyncAction) (R : Snapshot RemoteAttr) (q : String),
      (∀ a ∈ acts, actionPath a ≠ q) →
      (applyPlan L T R acts).entry q = R.entry q ∧
        (q ∈ (applyPlan L T R acts).paths ↔ q ∈ R.paths) := by
  intro acts
  induction acts with
  | nil => exact fun R q _ => ⟨rfl, Iff.rfl⟩
  | cons a rest ih =>
    intro R q hq
    have hstep : (applyAction L T R a).entry q = R.entry q ∧
        (q ∈ (applyAction L T R a).paths ↔ q ∈ R.paths) := by
      have hne : actionPath a ≠ q := hq a (List.mem_cons_self a rest)
      cases a with
      | mkdir p =>
        have hne' : q ≠ p := fun h => hne (show actionPath (SyncAction.mkdir p) = q from h.symm)
        constructor
        · show (if q = p then insertAttr L T (SyncAction.mkdir p) else R.entry q) = R.entry q
          rw [if_neg hne']
        · show q ∈ insert p R.paths ↔ q ∈ R.paths
          rw [Finset.mem_insert]
          exact ⟨fun h => h.resolve_left hne', Or.inr⟩
      | upload p =>
        have hne' : q ≠ p := fun h => hne (show actionPath (SyncAction.upload p) = q from h.symm)
        constructor
        · show (if q = p then insertAttr L T (SyncAction.upload p) else R.entry q) = R.entry q
          rw [if_neg hne']
        · show q ∈ insert p R.paths ↔ q ∈ R.paths
          rw [Finset.mem_insert]
          exact ⟨fun h => h.resolve_left hne', Or.inr⟩
      | removeFile p =>
        have hne' : q ≠ p := fun h => hne (show actionPath (SyncAction.removeFile p) = q from h.symm)
        refine ⟨rfl, ?_⟩
        show q ∈ R.paths.erase p ↔ q ∈ R.paths
        rw [Finset.mem_erase]
        exact ⟨fun h => h.2, fun h => ⟨hne', h⟩⟩
      | removeDir p =>
        have hne' : q ≠ p := fun h => hne (show actionPath (SyncAction.removeDir p) = q from h.symm)
        refine ⟨rfl, ?_⟩
        show q ∈ R.paths.erase p ↔ q ∈ R.paths
        rw [Finset.mem_erase]
        exact ⟨fun h => h.2, fun h => ⟨hne', h⟩⟩
    have hrest := ih (applyAction L T R a) q (fun b hb => hq b (List.mem_cons_of_mem a hb))
    exact ⟨hrest.1.trans hstep.1,
      (show applyPlan L T R (a :: rest) = applyPlan L T (applyAction L T R a) rest from rfl) ▸
        (hrest.2.trans hstep.2)⟩

theorem applyPlan_ins_mem (L : Snapshot LocalEntry) (T : String → ℤ) :
    ∀ (acts : List SyncAction) (R : Snapshot RemoteAttr) (q : String),
      (∀ a ∈ acts, IsIns a) →
      (q ∈ (applyPlan L T R acts).paths ↔ q ∈ R.paths ∨ q ∈ acts.map actionPath) := by
  intro acts
  induction acts with
  | nil => simp [applyPlan]
  | cons a rest ih =>
    intro R q hins
    have hmem : q ∈ (applyAction L T R a).paths ↔ q = actionPath a ∨ q ∈ R.paths := by
      rcases hins a (List.mem_cons_self a rest) with ⟨p, hp | hp⟩ <;> subst hp <;>
        exact Finset.mem_insert
    have := ih (applyAction L T R a) q (fun b hb => hins b (List.mem_cons_of_mem a hb))
    rw [show applyPlan L T R (a :: rest) = applyPlan L T (applyAction L T R a) rest from rfl,
      this, hmem, List.map_cons, List.mem_cons]
    tauto

theorem applyPlan_ins_entry (L : Snapshot LocalEntry) (T : String → ℤ) :
    ∀ (acts : List SyncAction) (R : Snapshot RemoteAttr) (q : String),
      (∀ a ∈ acts, IsIns a) → (acts.map actionPath).Nodup → q ∈ acts.map actionPath →
      ∃ a ∈ acts, actionPath a = q ∧
        (applyPlan L T R acts).entry q = insertAttr L T a := by
  intro acts
  induction acts with
  | nil => intro R q _ _ h; cases h
  | cons a rest ih =>
    intro R q hins hnd hq
    rw [List.map_cons] at hnd hq
    rcases List.mem_cons.mp hq with hqa | hqrest
    · refine ⟨a, List.mem_cons_self a rest, hqa.symm, ?_⟩
      have hnot : ∀ b ∈ rest, actionPath b ≠ q := by
        intro b hb he
        exact (List.nodup_cons.mp hnd).1 (hqa ▸ he ▸ List.mem_map_of_mem actionPath hb)
      have huntouched := applyPlan_untouched L T rest (applyAction L T R a) q hnot
      rw [show applyPlan L T R (a :: rest) = applyPlan L T (applyAction L T R a) rest from rfl,
        huntouched.1]
      rcases hins a (List.mem_cons_self a rest) with ⟨p, hp | hp⟩ <;> subst hp <;>
        exact if_pos (show q = p from hqa)
    · rcases ih (applyAction L T R a) q (fun b hb => hins b (List.mem_cons_of_mem a hb))
        (List.nodup_cons.mp hnd).2 hqrest with ⟨b, hb, hbq, hval⟩
      exact ⟨b, List.mem_cons_of_mem a hb, hbq, hval⟩

theorem applyPlan_rem (L : Snapshot LocalEntry) (T : String → ℤ) :
    ∀ (acts : List SyncAction) (R : Snapshot RemoteAttr),
      (∀ a ∈ acts, IsRem a) →
      (applyPlan L T R acts).entry = R.entry ∧
        ∀ q, (q ∈ (applyPlan L T R acts).paths ↔ q ∈ R.paths ∧ q ∉ acts.map actionPath) := by
  intro acts
  induction acts with
  | nil => simp [applyPlan]
  | cons a rest ih =>
    intro R hrem
    have hstep_entry : (applyAction L T R a).entry = R.entry := by
      rcases hrem a (List.mem_cons_self a rest) with ⟨p, hp | hp⟩ <;> subst hp <;> rfl
    have hstep_mem : ∀ q, q ∈ (applyAction L T R a).paths ↔ q ≠ actionPath a ∧ q ∈ R.paths := by
      intro q
      rcases hrem a (List.mem_cons_self a rest) with ⟨p, hp | hp⟩ <;> subst hp <;>
        exact Finset.mem_erase
    have hih := ih (applyAction L T R a) (fun b hb => hrem b (List.mem_cons_of_mem a hb))
    refine ⟨?_, ?_⟩
    · rw [show applyPlan L T R (a :: rest) = applyPlan L T (applyAction L T R a) rest from rfl,
        hih.1, hstep_entry]
    · intro q
      rw [show applyPlan L T R (a :: rest) = applyPlan L T (applyAction L T R a) rest from rfl,
        hih.2 q, hstep_mem q, List.map_cons, List.mem_cons]
      tauto

theorem createPlan_map (L : Snapshot LocalEntry) (R : Snapshot RemoteAttr) :
    (createPlan L R).map actionPath = sortAsc (L.paths \ R.paths) := by
  unfold createPlan
  rw [List.map_map]
  exact List.map_id'' (fun p => by
    by_cases h : (L.entry p).is_dir = true <;> simp [Function.comp_def, h, actionPath]) _

theorem createPlan_isIns (L : Snapshot LocalEntry) (R : Snapshot RemoteAttr) :
    ∀ a ∈ createPlan L R, IsIns a := by
  intro a ha
  rcases mem_createPlan.mp ha with ⟨p, -, hp⟩
  by_cases h : (L.entry p).is_dir = true
  · rw [if_pos h] at hp
    exact ⟨p, Or.inl hp⟩
  · rw [if_neg h] at hp
    exact ⟨p, Or.inr hp⟩

theorem comparePlan_map (L : Snapshot LocalEntry) (R : Snapshot RemoteAttr) :
    (comparePlan L R).map actionPath
      = (sortAsc (L.paths ∩ R.paths)).filter
          (fun p => !(L.entry p).is_dir && needsUpload (L.entry p) (R.entry p)) := by
  unfold comparePlan
  generalize sortAsc (L.paths ∩ R.paths) = l
  induction l with
  | nil => rfl
  | cons p rest ih =>
    rw [List.filterMap_cons, List.filter_cons]
    by_cases hd : (L.entry p).is_dir = true
    · rw [if_pos hd]
      have : (!(L.entry p).is_dir && needsUpload (L.entry p) (R.entry p)) = false := by
        rw [hd]
        rfl
      rw [this]
      simpa using ih
    · rw [if_neg hd]
      have hd' : (L.entry p).is_dir = false := by
        revert hd
        cases (L.entry p).is_dir <;> simp
      by_cases hn : needsUpload (L.entry p) (R.entry p) = true
      · rw [if_pos hn]
        have : (!(L.entry p).is_dir && needsUpload (L.entry p) (R.entry p)) = true := by
          rw [hd', hn]
          rfl
        rw [this]
        simp only [if_true, List.map_cons, ih]
        rfl
      · rw [if_neg hn]
        have hn' : needsUpload (L.entry p) (R.entry p) = false := by
          revert hn
          cases needsUpload (L.entry p) (R.entry p) <;> simp
        have : (!(L.entry p).is_dir && needsUpload (L.entry p) (R.entry p)) = false := by
          rw [hd', hn']
          rfl
        rw [this]
        simpa using ih

theorem comparePlan_isIns (L : Snapshot LocalEntry) (R : Snapshot RemoteAttr) :
    ∀ a ∈ comparePlan L R, IsIns a := by
  intro a ha
  rcases mem_comparePlan_shape ha with ⟨p, hp⟩
  exact ⟨p, Or.inr hp⟩

theorem deletePlan_map (L : Snapshot LocalEntry) (R : Snapshot RemoteAttr) :
    (deletePlan L R true).map actionPath = (sortAsc (R.paths \ L.paths)).reverse := by
  unfold deletePlan
  rw [if_pos rfl, List.map_map]
  exact List.map_id'' (fun p => by
    by_cases h : (R.entry p).is_dir = true <;> simp [Function.comp_def, h, actionPath]) _

theorem deletePlan_isRem (L : Snapshot LocalEntry) (R : Snapshot RemoteAttr) (allow : Bool) :
    ∀ a ∈ deletePlan L R allow, IsRem a := by
  intro a ha
  rcases mem_deletePlan.mp ha with ⟨-, p, -, hp⟩
  by_cases h : (R.entry p).is_dir = true
  · rw [if_pos h] at hp
    exact ⟨p, Or.inr hp⟩
  · rw [if_neg h] at hp
    exact ⟨p, Or.inl hp⟩

theorem syncOnce_eq (L : Snapshot LocalEntry) (R : Snapshot RemoteAttr) (T : String → ℤ)
    (allow : Bool) :
    syncOnce L R T allow =
      applyPlan L T (applyPlan L T (applyPlan L T R (createPlan L R)) (comparePlan L R))
        (deletePlan L R allow) := by
  unfold syncOnce initialSyncActions applyPlan
  rw [List.foldl_append, List.foldl_append]

theorem syncOnce_mem (L : Snapshot LocalEntry) (R : Snapshot RemoteAttr) (T : String → ℤ)
    (allow : Bool) (q : String) :
    q ∈ (syncOnce L R T allow).paths ↔ q ∈ L.paths ∨ (allow = false ∧ q ∈ R.paths) := by
  rw [syncOnce_eq]
  have h1 : q ∈ (applyPlan L T R (createPlan L R)).paths ↔
      q ∈ R.paths ∨ q ∈ L.paths \ R.paths := by
    rw [applyPlan_ins_mem L T _ R q (createPlan_isIns L R), createPlan_map, mem_sortAsc]
  have h2 : q ∈ (applyPlan L T (applyPlan L T R (createPlan L R)) (comparePlan L R)).paths ↔
      q ∈ (applyPlan L T R (createPlan L R)).paths := by
    rw [applyPlan_ins_mem L T _ _ q (comparePlan_isIns L R), comparePlan_map]
    constructor
    · rintro (h | h)
      · exact h
      · rw [List.mem_filter, mem_sortAsc, Finset.mem_inter] at h
        exact h1.mpr (Or.inl h.1.2)
    · exact Or.inl
  cases allow with
  | false =>
    have hdel : deletePlan L R false = [] := rfl
    rw [hdel]
    show q ∈ (applyPlan L T (applyPlan L T R (createPlan L R)) (comparePlan L R)).paths ↔ _
    rw [h2, h1, Finset.mem_sdiff]
    constructor
    · rintro (h | ⟨h1', h2'⟩)
      · exact Or.inr ⟨rfl, h⟩
      · exact Or.inl h1'
    · rintro (h | ⟨-, h⟩)
      · by_cases hr : q ∈ R.paths
        · exact Or.inl hr
        · exact Or.inr ⟨h, hr⟩
      · exact Or.inl h
  | true =>
    have hrem := (applyPlan_rem L T (deletePlan L R true)
      (applyPlan L T (applyPlan L T R (createPlan L R)) (comparePlan L R))
      (deletePlan_isRem L R true)).2 q
    rw [hrem, deletePlan_map, List.mem_reverse, mem_sortAsc, Finset.mem_sdiff, h2, h1,
      Finset.mem_sdiff]
    constructor
    · rintro ⟨h | ⟨hL, -⟩, hnot⟩
      · by_cases hq : q ∈ L.paths
        · exact Or.inl hq
        · exact absurd ⟨h, hq⟩ hnot
      · exact Or.inl hL
    · rintro (h | ⟨hfalse, -⟩)
      · refine ⟨?_, fun hc => hc.2 h⟩
        by_cases hr : q ∈ R.paths
        · exact Or.inl hr
        · exact Or.inr ⟨h, hr⟩
      · cases hfalse

theorem syncOnce_needsUpload (L : Snapshot LocalEntry) (R : Snapshot RemoteAttr)
    (T : String → ℤ) (allow : Bool)
    (hT : ∀ p, (L.entry p).is_dir = false → pyInt (L.entry p).mtime ≤ T p + 1)
    (q : String) (hqL : q ∈ L.paths) (hdir : (L.entry q).is_dir = false) :
    needsUpload (L.entry q) ((syncOnce L R T allow).entry q) = false := by
  have hfresh : needsUpload (L.entry q) ⟨false, T q, (L.entry q).size⟩ = false := by
    have h1 : ¬ (pyInt (L.entry q).mtime > T q + 1) := not_lt.mpr (hT q hdir)
    simp [needsUpload, h1]
  rw [syncOnce_eq]
  have hdel := (applyPlan_rem L T (deletePlan L R allow)
    (applyPlan L T (applyPlan L T R (createPlan L R)) (comparePlan L R))
    (deletePlan_isRem L R allow)).1
  rw [show (applyPlan L T (applyPlan L T (applyPlan L T R (createPlan L R)) (comparePlan L R))
      (deletePlan L R allow)).entry q
    = (applyPlan L T (applyPlan L T R (createPlan L R)) (comparePlan L R)).entry q
    from congrFun hdel q]
  by_cases hqR : q ∈ R.paths
  · have hcr : (applyPlan L T R (createPlan L R)).entry q = R.entry q := by
      refine (applyPlan_untouched L T (createPlan L R) R q ?_).1
      intro a ha he
      have hmapq : q ∈ (createPlan L R).map actionPath :=
        he ▸ List.mem_map_of_mem actionPath ha
      rw [createPlan_map, mem_sortAsc, Finset.mem_sdiff] at hmapq
      exact hmapq.2 hqR
    by_cases hneed : needsUpload (L.entry q) (R.entry q) = true
    · have hqm : q ∈ (comparePlan L R).map actionPath := by
        rw [comparePlan_map, List.mem_filter, mem_sortAsc]
        refine ⟨Finset.mem_inter.mpr ⟨hqL, hqR⟩, ?_⟩
        rw [hdir, hneed]
        rfl
      have hnd : ((comparePlan L R).map actionPath).Nodup := by
        rw [comparePlan_map]
        exact (sortAsc_nodup _).filter _
      rcases applyPlan_ins_entry L T (comparePlan L R) (applyPlan L T R (createPlan L R)) q
        (comparePlan_isIns L R) hnd hqm with ⟨a, ha, hpa, hval⟩
      rcases mem_comparePlan_shape ha with ⟨p, hp⟩
      subst hp
      have hpq : p = q := hpa
      subst hpq
      rw [hval]
      exact hfresh
    · have hcm : (applyPlan L T (applyPlan L T R (createPlan L R)) (comparePlan L R)).entry q
          = (applyPlan L T R (createPlan L R)).entry q := by
        refine (applyPlan_untouched L T (comparePlan L R) _ q ?_).1
        intro a ha he
        have hmapq : q ∈ (comparePlan L R).map actionPath :=
          he ▸ List.mem_map_of_mem actionPath ha
        rw [comparePlan_map, List.mem_filter] at hmapq
        rcases hmapq with ⟨-, hpred⟩
        rw [hdir] at hpred
        simp only [Bool.not_false, Bool.true_and] at hpred
        exact hneed hpred
      rw [hcm, hcr]
      revert hneed
      cases needsUpload (L.entry q) (R.entry q) <;> simp
  · have hqm : q ∈ (createPlan L R).map actionPath := by
      rw [createPlan_map, mem_sortAsc, Finset.mem_sdiff]
      exact ⟨hqL, hqR⟩
    have hnd : ((createPlan L R).map actionPath).Nodup := by
      rw [createPlan_map]
      exact sortAsc_nodup _
    rcases applyPlan_ins_entry L T (createPlan L R) R q (createPlan_isIns L R) hnd hqm
      with ⟨a, ha, hpa, hval⟩
    rcases mem_createPlan.mp ha with ⟨p, -, hform⟩
    have hpq : p = q := by
      rw [hform] at hpa
      by_cases h : (L.entry p).is_dir = true
      · rw [if_pos h] at hpa
        exact hpa
      · rw [if_neg h] at hpa
        exact hpa
    subst hpq
    have hform' : a = SyncAction.upload p := by
      rw [hform, if_neg (by rw [hdir]; exact Bool.false_ne_true)]
    subst hform'
    have hcm : (applyPlan L T (applyPlan L T R (createPlan L R)) (comparePlan L R)).entry p
        = (applyPlan L T R (createPlan L R)).entry p := by
      refine (applyPlan_untouched L T (comparePlan L R) _ p ?_).1
      intro b hb he
      have hmapq : p ∈ (comparePlan L R).map actionPath :=
        he ▸ List.mem_map_of_mem actionPath hb
      rw [comparePlan_map, List.mem_filter, mem_sortAsc, Finset.mem_inter] at hmapq
      exact hqR hmapq.1.2
    rw [hcm, hval]
    exact hfresh

/-- C8: the reconciliation pass is idempotent.  If the first pass's actions
all succeed — creating the missing directories, uploading the new and changed
files (the remote host stamping each uploaded file with some time `T p` not
more than one second older than the truncated local mtime, the same tolerance
the comparison itself uses), and, when permitted, removing the extras — then a
second pass over the resulting remote snapshot emits no action at all. -/
theorem C8_idempotent (L : Snapshot LocalEntry) (R : Snapshot RemoteAttr) (T : String → ℤ)
    (allow : Bool)
    (hT : ∀ p, (L.entry p).is_dir = false → pyInt (L.entry p).mtime ≤ T p + 1) :
    initialSyncActions L (syncOnce L R T allow) allow = [] := by
  have hmem := syncOnce_mem L R T allow
  have hc : createPlan L (syncOnce L R T allow) = [] := by
    unfold createPlan
    have hnil : sortAsc (L.paths \ (syncOnce L R T allow).paths) = [] := by
      rw [List.eq_nil_iff_forall_not_mem]
      intro p hp
      rw [mem_sortAsc, Finset.mem_sdiff] at hp
      exact hp.2 ((hmem p).mpr (Or.inl hp.1))
    rw [hnil]
    rfl
  have hm : comparePlan L (syncOnce L R T allow) = [] := by
    unfold comparePlan
    rw [List.filterMap_eq_nil_iff]
    intro p hp
    rw [mem_sortAsc, Finset.mem_inter] at hp
    by_cases hdp : (L.entry p).is_dir = true
    · rw [if_pos hdp]
    · rw [if_neg hdp]
      have hdp' : (L.entry p).is_dir = false := by
        revert hdp
        cases (L.entry p).is_dir <;> simp
      have hnu := syncOnce_needsUpload L R T allow hT p hp.1 hdp'
      rw [if_neg (by rw [hnu]; exact Bool.false_ne_true)]
  have hdplan : deletePlan L (syncOnce L R T allow) allow = [] := by
    cases allow with
    | false => rfl
    | true =>
      unfold deletePlan
      rw [if_pos rfl]
      have hnil : sortAsc ((syncOnce L R T true).paths \ L.paths) = [] := by
        rw [List.eq_nil_iff_forall_not_mem]
        intro p hp
        rw [mem_sortAsc, Finset.mem_sdiff] at hp
        rcases (hmem p).mp hp.1 with h | ⟨hfalse, -⟩
        · exact hp.2 h
        · cases hfalse
      rw [hnil]
      rfl
  rw [initialSyncActions, hc, hm, hdplan]
  rfl

def Lw8 : Snapshot LocalEntry :=
  ⟨{"a", "a/x.py"}, fun p => if p = "a" then ⟨true, ((0 : ℤ) : ℚ), 0⟩
    else ⟨false, ((5 : ℤ) : ℚ), 3⟩⟩

def Rw8 : Snapshot RemoteAttr := ⟨{"old.log"}, fun _ => ⟨false, 3, 7⟩⟩

theorem C8_idempotent_witness :
    initialSyncActions Lw8 (syncOnce Lw8 Rw8 (fun _ => 5) true) true = [] :=
  C8_idempotent Lw8 Rw8 (fun _ => 5) true (by
    intro p hp
    by_cases h : p = "a"
    · exact absurd (by rw [h] at hp; exact hp) (by decide)
    · have he : Lw8.entry p = ⟨false, ((5 : ℤ) : ℚ), 3⟩ := by
        show (if p = "a" then _ else _) = _
        rw [if_neg h]
      rw [he]
      show pyInt ((5 : ℤ) : ℚ) ≤ 5 + 1
      rw [pyInt_intCast]
      omega)

/-! ### C4: (im)purity of the path-inclusion predicate -/

/-- C4 counterexample: `is_excluded` consults `os.path.isdir(path)` — the
state of the local filesystem resolved against the process working directory —
whenever `source_code_only` is set.  Two calls with identical arguments
(path `a`, empty rule set, flag on) return different results depending on that
hidden state: when something answering "directory" happens to sit at the
cwd-relative location `a` the path is included, otherwise it is excluded by
the extension allow-list (`a` has no extension).  The entity actually being
filtered (for instance a remote file in `walk_remote`, whose kind is fixed)
is unrelated to this local query, so the result does not depend only on the
path, its kind, the rule set and the flag. -/
theorem C4_counterexample :
    is_excluded "a" [] true (fun _ => true) = false ∧
    is_excluded "a" [] true (fun _ => false) = true :=
  ⟨by decide, by decide⟩

/-- C4 (amended): `is_excluded` is deterministic *given the filesystem
answer*: its result depends on the local filesystem only through the single
query `os.path.isdir path`, not at all when `source_code_only` is off, and it
is order-independent (permutation-invariant) over the rule set. -/
theorem C4_deterministic_given_fs :
    (∀ (path : String) (pats pats' : List String) (sco : Bool) (fs fs' : String → Bool),
      fs path = fs' path → pats.Perm pats' →
      is_excluded path pats sco fs = is_excluded path pats' sco fs') ∧
    (∀ (path : String) (pats : List String) (fs fs' : String → Bool),
      is_excluded path pats false fs = is_excluded path pats false fs') := by
  constructor
  · intro path pats pats' sco fs fs' hfs hperm
    unfold is_excluded
    dsimp only
    have hany : pats.any (fun pattern => fnmatch path pattern || fnmatch (basename path) pattern)
        = pats'.any (fun pattern => fnmatch path pattern || fnmatch (basename path) pattern) := by
      rw [Bool.eq_iff_iff, List.any_eq_true, List.any_eq_true]
      constructor
      · rintro ⟨x, hx, hfx⟩
        exact ⟨x, hperm.mem_iff.mp hx, hfx⟩
      · rintro ⟨x, hx, hfx⟩
        exact ⟨x, hperm.mem_iff.mpr hx, hfx⟩
    rw [hany, hfs]
  · intro path pats fs fs'
    rfl

theorem C4_deterministic_given_fs_witness :
    (is_excluded "b.py" ["*.log", "node_modules"] true (fun _ => false)
      = is_excluded "b.py" ["node_modules", "*.log"] true (fun _ => false)) ∧
    (is_excluded "b.py" ["*.log"] false (fun _ => false)
      = is_excluded "b.py" ["*.log"] false (fun _ => true)) :=
  ⟨C4_deterministic_given_fs.1 "b.py" ["*.log", "node_modules"] ["node_modules", "*.log"]
      true (fun _ => false) (fun _ => false) rfl (List.Perm.swap _ _ _),
    C4_deterministic_given_fs.2 "b.py" ["*.log"] (fun _ => false) (fun _ => true)⟩

/-! ## `walk_remote` (lines 85–113) and C10 -/

mutual
/-- A remote directory's contents as served by `sftp.listdir_attr`. -/
inductive RTree where
  | node : RChildren → RTree
/-- The listing of one remote directory: each entry carries `attr.filename`,
the attributes the source reads, and — when it is a directory — its own
listing. -/
inductive RChildren where
  | nil : RChildren
  | cons (filename : String) (attr : RemoteAttr) (sub : RTree) (rest : RChildren) : RChildren
end

mutual
def RTree.tsize : RTree → ℕ
  | RTree.node cs => 1 + RChildren.csize cs
def RChildren.csize : RChildren → ℕ
  | RChildren.nil => 0
  | RChildren.cons _ _ sub rest => RTree.tsize sub + RChildren.csize rest
end

mutual
/-- Well-formedness of a remote tree: filenames are nonempty and contain no
`/` — true of any listing an SFTP server can produce. -/
inductive RTreeWF : RTree → Prop where
  | node : ∀ {cs}, RChildrenWF cs → RTreeWF (RTree.node cs)
inductive RChildrenWF : RChildren → Prop where
  | nil : RChildrenWF RChildren.nil
  | cons : ∀ {n a sub rest}, n ≠ "" → ('/' ∉ n.data) → RTreeWF sub → RChildrenWF rest →
      RChildrenWF (RChildren.cons n a sub rest)
end

/-- The `for attr in sftp.listdir_attr(...)` body (lines 97–107) over the
listing of the directory at relative path `rel`: each entry's relative path is
`os.path.join(current_rel_path, attr.filename)` (line 98); the exclusion
check (lines 101–102) appends a `/` for directories and passes
`source_code_only and (not is_dir)`; included entries are recorded in
`remote_map`, and included directories are pushed onto the traversal stack
(the head of the list plays the role of the top, matching `stack.pop()`). -/
def walkStep (pats : List String) (sco : Bool) (fsO : String → Bool) (rel : String) :
    RChildren → List (String × RTree) → List (String × RemoteAttr) →
      List (String × RTree) × List (String × RemoteAttr)
  | RChildren.nil, stack, acc => (stack, acc)
  | RChildren.cons filename attr sub rest, stack, acc =>
    if is_excluded (if attr.is_dir then pyJoin rel filename ++ "/" else pyJoin rel filename)
        pats (sco && !attr.is_dir) fsO then
      walkStep pats sco fsO rel rest stack acc
    else
      walkStep pats sco fsO rel rest
        (if attr.is_dir then (pyJoin rel filename, sub) :: stack else stack)
        (acc ++ [(pyJoin rel filename, attr)])

/-- The `while stack:` loop of lines 92–111.  The recursion is fuelled so that
it is structural: each iteration pops one directory node, so the total size of
the trees initially on the stack bounds the number of iterations and the `0`
branch is unreachable from `walk_remote`.  (The mid-scan
`FileNotFoundError` branch of lines 108–111 corresponds to a directory
vanishing between listing and visit; the tree argument is the static snapshot
of what the scan actually saw, so the skip-and-continue branch adds nothing to
the model.) -/
def walkLoopF (pats : List String) (sco : Bool) (fsO : String → Bool) :
    ℕ → List (String × RTree) → List (String × RemoteAttr) → List (String × RemoteAttr)
  | 0, _, acc => acc
  | _ + 1, [], acc => acc
  | fuel + 1, (rel, RTree.node cs) :: stack, acc =>
    walkLoopF pats sco fsO fuel (walkStep pats sco fsO rel cs stack acc).1
      (walkStep pats sco fsO rel cs stack acc).2

/-- `walk_remote(sftp, remote_path, exclude_patterns, source_code_only)`:
the stack starts as `[""]` holding the root, the map starts empty. -/
def walk_remote (pats : List String) (sco : Bool) (fsO : String → Bool)
    (root : RTree) : List (String × RemoteAttr) :=
  walkLoopF pats sco fsO root.tsize [("", root)] []

/-! ### Path algebra for the pruning proof -/

theorem data_eq_nil_iff {s : String} : s.data = [] ↔ s = "" := by
  constructor
  · intro h
    apply String.toList_inj.mp
    rw [show s.toList = s.data from rfl, h]
    rfl
  · rintro rfl
    rfl

theorem isUnder_data {d p : String} :
    isUnder d p ↔ ∃ sl : List Char, p.data = d.data ++ '/' :: sl := by
  constructor
  · rintro ⟨s, rfl⟩
    refine ⟨s.data, ?_⟩
    simp [String.data_append]
  · rintro ⟨sl, hp⟩
    refine ⟨⟨sl⟩, ?_⟩
    apply String.toList_inj.mp
    show p.data = (d ++ "/" ++ ⟨sl⟩).data
    simp [String.data_append, hp]

theorem strStarts_slash_eq_false {n : String} (hn : '/' ∉ n.data) (hne : n ≠ "") :
    strStarts "/" n = false := by
  unfold strStarts
  cases hd : n.data with
  | nil => exact absurd (data_eq_nil_iff.mp hd) hne
  | cons c cs =>
    have hc : c ≠ '/' := by
      intro h
      exact hn (hd ▸ h ▸ List.mem_cons_self c cs)
    show (("/").data.isPrefixOf (c :: cs)) = false
    simp [List.isPrefixOf, Ne.symm hc]

theorem pyJoin_empty {n : String} (hn : '/' ∉ n.data) (hne : n ≠ "") :
    pyJoin "" n = n := by
  unfold pyJoin
  rw [strStarts_slash_eq_false hn hne]
  simp

theorem pyJoin_ne_empty {r n : String} (hr : r ≠ "") (hn : '/' ∉ n.data) (hne : n ≠ "") :
    pyJoin r n = r ++ "/" ++ n := by
  unfold pyJoin
  rw [strStarts_slash_eq_false hn hne]
  simp [hr]

theorem append_slash_cases : ∀ (dl rl sl nl : List Char), '/' ∉ nl →
    rl ++ '/' :: nl = dl ++ '/' :: sl → (dl = rl ∧ sl = nl) ∨ ∃ tl, rl = dl ++ '/' :: tl := by
  intro dl
  induction dl with
  | nil =>
    intro rl sl nl hn heq
    cases rl with
    | nil =>
      simp only [List.nil_append] at heq
      injection heq with h1 h2
      exact Or.inl ⟨rfl, h2.symm⟩
    | cons c rl' =>
      simp only [List.cons_append, List.nil_append] at heq
      injection heq with h1 h2
      refine Or.inr ⟨rl', ?_⟩
      rw [h1]
      rfl
  | cons c dl' ih =>
    intro rl sl nl hn heq
    cases rl with
    | nil =>
      simp only [List.nil_append, List.cons_append] at heq
      injection heq with h1 h2
      exact absurd (h2 ▸ List.mem_append.mpr (Or.inr (List.mem_cons_self _ _))) hn
    | cons c' rl' =>
      simp only [List.cons_append] at heq
      injection heq with h1 h2
      rcases ih rl' sl nl hn h2 with ⟨hdl, hsl⟩ | ⟨tl, htl⟩
      · refine Or.inl ⟨?_, hsl⟩
        rw [h1, hdl]
      · refine Or.inr ⟨tl, ?_⟩
        rw [h1, htl]
        rfl

/-- A well-formed relative path produced by the walk: nonempty, no leading
slash. -/
def NiceK (k : String) : Prop := k ≠ "" ∧ k.data.head? ≠ some '/'

theorem niceK_pyJoin {r n : String} (hr : r = "" ∨ NiceK r) (hne : n ≠ "")
    (hn : '/' ∉ n.data) : NiceK (pyJoin r n) := by
  rcases hr with hr | ⟨hr1, hr2⟩
  · subst hr
    rw [pyJoin_empty hn hne]
    refine ⟨hne, ?_⟩
    cases hd : n.data with
    | nil => exact absurd (data_eq_nil_iff.mp hd) hne
    | cons c cs =>
      have hc : c ≠ '/' := fun h => hn (hd ▸ h ▸ List.mem_cons_self c cs)
      simp [hc]
  · rw [pyJoin_ne_empty hr1 hn hne]
    constructor
    · intro h
      have : (r ++ "/" ++ n).data = [] := data_eq_nil_iff.mpr h
      simp [String.data_append] at this
    · cases hd : r.data with
      | nil => exact absurd (data_eq_nil_iff.mp hd) hr1
      | cons c cs =>
        have hc : c ≠ '/' := by
          rw [hd] at hr2
          simpa using hr2
        have : (r ++ "/" ++ n).data = c :: (cs ++ '/' :: n.data) := by
          simp [String.data_append, hd]
        rw [this]
        simpa using hc

theorem isUnder_pyJoin_empty {n d : String} (hne : n ≠ "") (hn : '/' ∉ n.data) :
    ¬ isUnder d (pyJoin "" n) := by
  rw [pyJoin_empty hn hne]
  intro h
  rcases isUnder_data.mp h with ⟨sl, hsl⟩
  exact hn (hsl ▸ List.mem_append.mpr (Or.inr (List.mem_cons_self _ _)))

theorem isUnder_pyJoin {r n d : String} (hr : r ≠ "") (hne : n ≠ "") (hn : '/' ∉ n.data)
    (h : isUnder d (pyJoin r n)) : d = r ∨ isUnder d r := by
  rw [pyJoin_ne_empty hr hn hne] at h
  rcases isUnder_data.mp h with ⟨sl, hsl⟩
  rw [show (r ++ "/" ++ n).data = r.data ++ '/' :: n.data by simp [String.data_append]] at hsl
  rcases append_slash_cases d.data r.data sl n.data hn hsl with ⟨hdl, -⟩ | ⟨tl, htl⟩
  · exact Or.inl (String.toList_inj.mp hdl)
  · exact Or.inr (isUnder_data.mpr ⟨tl, htl⟩)

/-- Membership of an entry in a directory listing. -/
inductive ChildMem : String → RemoteAttr → RTree → RChildren → Prop where
  | head : ∀ {n a sub rest}, ChildMem n a sub (RChildren.cons n a sub rest)
  | tail : ∀ {n a sub n' a' sub' rest}, ChildMem n a sub rest →
      ChildMem n a sub (RChildren.cons n' a' sub' rest)

/-- A snapshot entry reachable from a stack entry `(r, t)`: a chain of
included directory pushes followed by one included recording. -/
inductive Reaches (pats : List String) (sco : Bool) (fsO : String → Bool) :
    String → RTree → String → RemoteAttr → Prop where
  | here : ∀ {r cs filename attr sub}, ChildMem filename attr sub cs →
      is_excluded (if attr.is_dir then pyJoin r filename ++ "/" else pyJoin r filename)
        pats (sco && !attr.is_dir) fsO = false →
      Reaches pats sco fsO r (RTree.node cs) (pyJoin r filename) attr
  | deeper : ∀ {r cs filename attr sub k b}, ChildMem filename attr sub cs →
      attr.is_dir = true →
      is_excluded (pyJoin r filename ++ "/") pats (sco && !attr.is_dir) fsO = false →
      Reaches pats sco fsO (pyJoin r filename) sub k b →
      Reaches pats sco fsO r (RTree.node cs) k b

theorem childMem_wf : ∀ {cs : RChildren} {n : String} {a : RemoteAttr} {sub : RTree},
    RChildrenWF cs → ChildMem n a sub cs → n ≠ "" ∧ '/' ∉ n.data ∧ RTreeWF sub := by
  intro cs n a sub hwf hcm
  induction hcm with
  | head =>
    cases hwf with
    | cons h1 h2 h3 h4 => exact ⟨h1, h2, h3⟩
  | tail hcm ih =>
    cases hwf with
    | cons h1 h2 h3 h4 => exact ih h4

theorem walkStep_spec (pats : List String) (sco : Bool) (fsO : String → Bool) (rel : String) :
    ∀ (cs : RChildren) (stack : List (String × RTree)) (acc : List (String × RemoteAttr)),
    (∀ x ∈ (walkStep pats sco fsO rel cs stack acc).2, x ∈ acc ∨
      ∃ filename attr sub, ChildMem filename attr sub cs ∧
        is_excluded (if attr.is_dir then pyJoin rel filename ++ "/" else pyJoin rel filename)
          pats (sco && !attr.is_dir) fsO = false ∧ x = (pyJoin rel filename, attr)) ∧
    (∀ e ∈ (walkStep pats sco fsO rel cs stack acc).1, e ∈ stack ∨
      ∃ filename attr sub, ChildMem filename attr sub cs ∧ attr.is_dir = true ∧
        is_excluded (pyJoin rel filename ++ "/") pats (sco && !attr.is_dir) fsO = false ∧
        e = (pyJoin rel filename, sub))
  | RChildren.nil, stack, acc => ⟨fun x hx => Or.inl hx, fun e he => Or.inl he⟩
  | RChildren.cons filename attr sub rest, stack, acc => by
    have ih := walkStep_spec pats sco fsO rel rest
    by_cases hexcl : is_excluded
        (if attr.is_dir then pyJoin rel filename ++ "/" else pyJoin rel filename)
        pats (sco && !attr.is_dir) fsO = true
    · rw [walkStep, if_pos hexcl]
      refine ⟨fun x hx => ?_, fun e he => ?_⟩
      · rcases (ih stack acc).1 x hx with h | ⟨fn, at', sb, hcm, hex, hx'⟩
        · exact Or.inl h
        · exact Or.inr ⟨fn, at', sb, ChildMem.tail hcm, hex, hx'⟩
      · rcases (ih stack acc).2 e he with h | ⟨fn, at', sb, hcm, hdir, hex, he'⟩
        · exact Or.inl h
        · exact Or.inr ⟨fn, at', sb, ChildMem.tail hcm, hdir, hex, he'⟩
    · have hexcl' : is_excluded
          (if attr.is_dir then pyJoin rel filename ++ "/" else pyJoin rel filename)
          pats (sco && !attr.is_dir) fsO = false := by
        revert hexcl
        cases is_excluded (if attr.is_dir then pyJoin rel filename ++ "/" else pyJoin rel filename)
          pats (sco && !attr.is_dir) fsO <;> simp
      rw [walkStep, if_neg hexcl]
      refine ⟨fun x hx => ?_, fun e he => ?_⟩
      · rcases (ih _ _).1 x hx with h | ⟨fn, at', sb, hcm, hex, hx'⟩
        · rcases List.mem_append.mp h with h' | h'
          · exact Or.inl h'
          · rcases List.mem_singleton.mp h' with rfl
            exact Or.inr ⟨filename, attr, sub, ChildMem.head, hexcl', rfl⟩
        · exact Or.inr ⟨fn, at', sb, ChildMem.tail hcm, hex, hx'⟩
      · rcases (ih _ _).2 e he with h | ⟨fn, at', sb, hcm, hdir, hex, he'⟩
        · by_cases hdira : attr.is_dir = true
          · rw [if_pos hdira] at h
            rcases List.mem_cons.mp h with h' | h'
            · subst h'
              refine Or.inr ⟨filename, attr, sub, ChildMem.head, hdira, ?_, rfl⟩
              rw [if_pos hdira] at hexcl'
              exact hexcl'
            · exact Or.inl h'
          · rw [if_neg hdira] at h
            exact Or.inl h
        · exact Or.inr ⟨fn, at', sb, ChildMem.tail hcm, hdir, hex, he'⟩

theorem walkLoopF_sound (pats : List String) (sco : Bool) (fsO : String → Bool) :
    ∀ (fuel : ℕ) (stack : List (String × RTree)) (acc : List (String × RemoteAttr))
      (k : String) (a : RemoteAttr),
      (k, a) ∈ walkLoopF pats sco fsO fuel stack acc →
      (k, a) ∈ acc ∨ ∃ r t, (r, t) ∈ stack ∧ Reaches pats sco fsO r t k a := by
  intro fuel
  induction fuel with
  | zero => exact fun stack acc k a h => Or.inl h
  | succ n ih =>
    intro stack acc k a h
    cases stack with
    | nil => exact Or.inl h
    | cons top rest =>
      rcases top with ⟨rel, t⟩
      cases t with
      | node cs =>
        rw [walkLoopF] at h
        rcases ih _ _ k a h with hacc | ⟨r, t, htmem, hreach⟩
        · rcases (walkStep_spec pats sco fsO rel cs rest acc).1 _ hacc
            with h1 | ⟨fn, at', sb, hcm, hex, hx⟩
          · exact Or.inl h1
          · injection hx with hk ha
            subst hk
            subst ha
            exact Or.inr ⟨rel, RTree.node cs, List.mem_cons_self _ _, Reaches.here hcm hex⟩
        · rcases (walkStep_spec pats sco fsO rel cs rest acc).2 _ htmem
            with h1 | ⟨fn, at', sb, hcm, hdir, hex, he⟩
          · exact Or.inr ⟨r, t, List.mem_cons_of_mem _ h1, hreach⟩
          · injection he with hr ht
            subst hr
            subst ht
            exact Or.inr ⟨rel, RTree.node cs, List.mem_cons_self _ _,
              Reaches.deeper hcm hdir hex hreach⟩

theorem reaches_sound (pats : List String) (sco : Bool) (fsO : String → Bool) :
    ∀ {r : String} {t : RTree} {k : String} {a : RemoteAttr},
      Reaches pats sco fsO r t k a →
      RTreeWF t → (r = "" ∨ NiceK r) →
      (a.is_dir = true → is_excluded (k ++ "/") pats false fsO = false) ∧
      (∀ d, isUnder d k →
        d = r ∨ isUnder d r ∨ is_excluded (d ++ "/") pats false fsO = false) ∧
      NiceK k := by
  intro r t k a hreach
  induction hreach with
  | here hcm hex =>
    intro hwf hr
    cases hwf with
    | node hwfc =>
      obtain ⟨hne, hn, hsubwf⟩ := childMem_wf hwfc hcm
      refine ⟨?_, ?_, niceK_pyJoin hr hne hn⟩
      · intro hdir
        rw [hdir] at hex
        simpa using hex
      · intro d hd
        rcases hr with hr | hrn
        · subst hr
          exact absurd hd (isUnder_pyJoin_empty hne hn)
        · rcases isUnder_pyJoin hrn.1 hne hn hd with h | h
          · exact Or.inl h
          · exact Or.inr (Or.inl h)
  | deeper hcm hdir hex hsub ih =>
    rename_i r' cs' fn attr' sub' k' b'
    intro hwf hr
    cases hwf with
    | node hwfc =>
      obtain ⟨hne, hn, hsubwf⟩ := childMem_wf hwfc hcm
      have hnice := niceK_pyJoin hr hne hn
      have hexf : is_excluded (pyJoin r' fn ++ "/") pats false fsO = false := by
        rw [hdir] at hex
        simpa using hex
      obtain ⟨h1, h2, h3⟩ := ih hsubwf (Or.inr hnice)
      refine ⟨h1, ?_, h3⟩
      intro d hd
      rcases h2 d hd with h | h | h
      · subst h
        exact Or.inr (Or.inr hexf)
      · rcases hr with hr | hrn
        · subst hr
          exact absurd h (isUnder_pyJoin_empty hne hn)
        · rcases isUnder_pyJoin hrn.1 hne hn h with h' | h'
          · exact Or.inl h'
          · exact Or.inr (Or.inl h')
      · exact Or.inr (Or.inr h)

/-- C10: in the remote tree scan (`walk_remote`, lines 85–113), an excluded
directory prunes its whole subtree.  The exclusion check of lines 101–102 is
performed with a trailing `/` and with the `source_code_only` argument forced
to `False` for directories; a directory failing it is neither recorded in
`remote_map` nor pushed onto the traversal stack (lines 104–107), so for every
remote directory path `dp` the filter excludes, the returned snapshot contains
no path strictly beneath `dp`, and no directory entry at `dp` itself.  The
tree is well-formed (server-produced listing names are nonempty and
`/`-free). -/
theorem C10_excluded_dir_pruned (pats : List String) (sco : Bool) (fsO : String → Bool)
    (root : RTree) (hwf : RTreeWF root) (dp : String)
    (hexcl : is_excluded (dp ++ "/") pats false fsO = true)
    (k : String) (a : RemoteAttr)
    (hmem : (k, a) ∈ walk_remote pats sco fsO root) :
    ¬ isUnder dp k ∧ (a.is_dir = true → k ≠ dp) := by
  rcases walkLoopF_sound pats sco fsO root.tsize [("", root)] [] k a hmem with
    h | ⟨r, t, hrt, hreach⟩
  · exact absurd h (List.not_mem_nil _)
  · have heq := List.mem_singleton.mp hrt
    injection heq with hr ht
    subst hr
    subst ht
    obtain ⟨h1, h2, h3⟩ := reaches_sound pats sco fsO hreach hwf (Or.inl rfl)
    constructor
    · intro hd
      rcases h2 dp hd with h' | h' | h'
      · subst h'
        rcases isUnder_data.mp hd with ⟨sl, hsl⟩
        have : k.data.head? = some '/' := by
          rw [hsl]
          rfl
        exact absurd this h3.2
      · rcases isUnder_data.mp h' with ⟨sl, hsl⟩
        have h0 : dp.data ++ '/' :: sl = [] := hsl.symm
        rcases List.append_eq_nil.mp h0 with ⟨-, h2'⟩
        exact absurd h2' (List.cons_ne_nil _ _)
      · rw [h'] at hexcl
        exact absurd hexcl (by decide)
    · intro hdir heq'
      subst heq'
      rw [h1 hdir] at hexcl
      exact absurd hexcl (by decide)

/-- A concrete remote listing: the root holds a directory `stale` (containing
`inner.py`) and a file `keep.py`. -/
def sampleTreeC10 : RTree :=
  RTree.node (RChildren.cons "stale" ⟨true, 0, 0⟩
      (RTree.node (RChildren.cons "inner.py" ⟨false, 0, 1⟩
        (RTree.node RChildren.nil) RChildren.nil))
    (RChildren.cons "keep.py" ⟨false, 0, 2⟩ (RTree.node RChildren.nil) RChildren.nil))

theorem sampleTreeC10_wf : RTreeWF sampleTreeC10 :=
  RTreeWF.node (RChildrenWF.cons (by decide) (by decide)
    (RTreeWF.node (RChildrenWF.cons (by decide) (by decide)
      (RTreeWF.node RChildrenWF.nil) RChildrenWF.nil))
    (RChildrenWF.cons (by decide) (by decide)
      (RTreeWF.node RChildrenWF.nil) RChildrenWF.nil))

theorem C10_excluded_dir_pruned_witness :
    is_excluded ("stale" ++ "/") ["stale*"] false (fun _ => false) = true ∧
    ("keep.py", (⟨false, 0, 2⟩ : RemoteAttr)) ∈
      walk_remote ["stale*"] false (fun _ => false) sampleTreeC10 ∧
    (¬ isUnder "stale" "keep.py" ∧
      ((⟨false, 0, 2⟩ : RemoteAttr).is_dir = true → "keep.py" ≠ "stale")) :=
  ⟨by decide, by decide,
    C10_excluded_dir_pruned ["stale*"] false (fun _ => false) sampleTreeC10 sampleTreeC10_wf
      "stale" (by decide) "keep.py" ⟨false, 0, 2⟩ (by decide)⟩
